import Mathlib

/- Verification development for the preprocessing_tools repository.

Embedded components (from src/):
  * continuum_correction.py : continuum_correction_spectrum, continuum_image
  * tools/despiking.py      : fix_outlier_args (scipy.signal.find_peaks), despike_image
  * correct_images.py       : the despike-threshold guard of process_folder

Numeric model: numpy float entries are modelled exactly as IEEE-style extended
values (a rational, NaN, or a signed infinity); no rounding is modelled.  A
denominator that is exactly zero arises in the sources as x - x, which is +0.0
in IEEE arithmetic, so division by zero follows the +0 sign convention. -/

/-- IEEE-style extended value: a finite rational, NaN, or a signed infinity. -/
inductive RVal where
  | num : ℚ → RVal
  | nan : RVal
  | pinf : RVal
  | ninf : RVal
deriving DecidableEq, Repr

namespace RVal

/-- IEEE negation. -/
def neg : RVal → RVal
  | num q => num (-q)
  | nan => nan
  | pinf => ninf
  | ninf => pinf

/-- IEEE addition (exact on finite values). -/
def add : RVal → RVal → RVal
  | nan, _ => nan
  | _, nan => nan
  | num a, num b => num (a + b)
  | num _, pinf => pinf
  | num _, ninf => ninf
  | pinf, num _ => pinf
  | ninf, num _ => ninf
  | pinf, pinf => pinf
  | ninf, ninf => ninf
  | pinf, ninf => nan
  | ninf, pinf => nan

/-- IEEE multiplication (exact on finite values). -/
def mul : RVal → RVal → RVal
  | nan, _ => nan
  | _, nan => nan
  | num a, num b => num (a * b)
  | num a, pinf => if a = 0 then nan else if 0 < a then pinf else ninf
  | num a, ninf => if a = 0 then nan else if 0 < a then ninf else pinf
  | pinf, num a => if a = 0 then nan else if 0 < a then pinf else ninf
  | ninf, num a => if a = 0 then nan else if 0 < a then ninf else pinf
  | pinf, pinf => pinf
  | pinf, ninf => ninf
  | ninf, pinf => ninf
  | ninf, ninf => pinf

/-- IEEE subtraction. -/
def sub (a b : RVal) : RVal := add a (neg b)

/-- IEEE division with a +0.0 denominator convention: 0/0 is NaN and x/0 is a
signed infinity, exactly what numpy produces when the zero denominator arises
as a difference x - x. -/
def div : RVal → RVal → RVal
  | nan, _ => nan
  | _, nan => nan
  | num a, num b =>
    if b = 0 then (if a = 0 then nan else if 0 < a then pinf else ninf)
    else num (a / b)
  | num _, pinf => num 0
  | num _, ninf => num 0
  | pinf, num b => if 0 ≤ b then pinf else ninf
  | ninf, num b => if 0 ≤ b then ninf else pinf
  | pinf, pinf => nan
  | pinf, ninf => nan
  | ninf, pinf => nan
  | ninf, ninf => nan

/-- Finiteness test (false for NaN and the infinities). -/
def isFinite : RVal → Bool
  | num _ => true
  | _ => false

/-- Model of np.nan_to_num with nan=0, posinf=1, neginf=0, as called on the
point array in continuum_correction_spectrum. -/
def nanToNum : RVal → ℚ
  | num q => q
  | nan => 0
  | pinf => 1
  | ninf => 0

end RVal

/-- A 2-D point of the hull computation; following the column order of the
source (np.column_stack((values, wavelengths))) the first coordinate is the
spectral value and the second the wavelength. -/
structure Point where
  val : ℚ
  wvl : ℚ
deriving DecidableEq, Repr

/-- Twice the signed area of the triangle (p, q, r). -/
def orient (p q r : Point) : ℚ :=
  (q.val - p.val) * (r.wvl - p.wvl) - (q.wvl - p.wvl) * (r.val - p.val)

/-- Membership of p in the segment from q to r (collinearity plus coordinatewise
betweenness). -/
def onSegment (p q r : Point) : Bool :=
  decide (orient q r p = 0) &&
  decide (min q.val r.val ≤ p.val) && decide (p.val ≤ max q.val r.val) &&
  decide (min q.wvl r.wvl ≤ p.wvl) && decide (p.wvl ≤ max q.wvl r.wvl)

/-- Membership of p in the (possibly degenerate) triangle with corners q, r, s,
via barycentric coordinates when the triangle is nondegenerate and via its
edges otherwise. -/
def inTriangle (p q r s : Point) : Bool :=
  let d := orient q r s
  if d = 0 then onSegment p q r || onSegment p r s || onSegment p q s
  else
    decide (0 ≤ orient p r s / d) && decide (0 ≤ orient q p s / d) &&
    decide (0 ≤ orient q r p / d)

/-- Membership of p in the convex hull of a finite point set, by Caratheodory:
p lies in some (possibly degenerate) triangle over the set. -/
def inConvexOfTriple (p : Point) (others : List Point) : Bool :=
  others.any fun q => others.any fun r => others.any fun s => inTriangle p q r s

/-- Model of scipy.spatial.ConvexHull vertex membership: index i is reported as
a hull vertex exactly when its point is an extreme point of the set, i.e. not
in the convex hull of the remaining points. -/
def isVertexIdx (pts : List Point) (i : ℕ) : Bool :=
  !(inConvexOfTriple (pts.getD i ⟨0, 0⟩) (pts.eraseIdx i))

/-- Degeneracy of the point set (all points collinear, the condition under
which qhull fails in two dimensions and ConvexHull raises QhullError). -/
def collinearAll (pts : List Point) : Bool :=
  match pts with
  | [] => true
  | p :: rest =>
    match rest.find? (fun q => decide (q ≠ p)) with
    | none => true
    | some q => pts.all fun r => decide (orient p q r = 0)

/-- Python list indexing of a rational array (negative indices count from the
end, as in numpy). -/
def pyGetQ (xs : List ℚ) (i : ℤ) : ℚ :=
  if 0 ≤ i then xs.getD i.toNat 0 else xs.getD (xs.length - (-i).toNat) 0

/-- Python list indexing of a float array. -/
def pyGetR (xs : List RVal) (i : ℤ) : RVal :=
  if 0 ≤ i then xs.getD i.toNat RVal.nan else xs.getD (xs.length - (-i).toNat) RVal.nan

/-- Model of the built-in sorted() (a stable sort). -/
def pySorted (l : List ℤ) : List ℤ := l.insertionSort (· ≤ ·)

/-- Model of np.searchsorted with side='left': the first index whose element is
not below t, or the length when every element is below t. -/
def searchsortedLeft (xs : List ℚ) (t : ℚ) : ℕ :=
  (xs.findIdx? fun x => decide (t ≤ x)).getD xs.length

/-- Model of scipy.interpolate.interp1d(xs, ys, bounds_error=False) evaluated
at t: linear interpolation on the segment selected by searchsorted clipped to
[1, len-1], with the default NaN fill value outside [xs[0], xs[len-1]]. -/
def interp1dEval (xs : List ℚ) (ys : List RVal) (t : ℚ) : RVal :=
  if t < xs.getD 0 0 ∨ xs.getD (xs.length - 1) 0 < t then RVal.nan
  else
    let idx := min (max (searchsortedLeft xs t) 1) (xs.length - 1)
    let lo := idx - 1
    let slope := RVal.div (RVal.sub (ys.getD idx RVal.nan) (ys.getD lo RVal.nan))
      (RVal.num (xs.getD idx 0 - xs.getD lo 0))
    RVal.add (RVal.mul slope (RVal.num (t - xs.getD lo 0))) (ys.getD lo RVal.nan)

/-- Failure outcomes of continuum_correction_spectrum.  shapeMismatch models
the AssertionError of the leading shape asserts (the ShapeMismatchError
condition of the specification); degenerateHull models the QhullError that
scipy.spatial.ConvexHull raises on a degenerate point set and that escapes the
except ValueError clause (QhullError derives from RuntimeError); indexError
models the IndexError of the wavelength lookup when a processed vertex index
is out of range (the preceding value lookup is wrapped in try/except but the
wavelength lookup of the same indices is not). -/
inductive SpecError where
  | shapeMismatch : SpecError
  | degenerateHull : SpecError
  | indexError : SpecError
deriving DecidableEq, Repr

/-- The 2-D point array of continuum_correction_spectrum: the spectral values
with a dummy 0 prepended and appended, stacked against the wavelengths with
the first and last wavelength repeated, then sanitized by np.nan_to_num
(nan=0, posinf=1, neginf=0).  Wavelength coordinates are finite rationals, on
which nan_to_num is the identity. -/
def sanitizedPoints (spec : List RVal) (w : List ℚ) : List Point :=
  let valsCol : List RVal := (RVal.num 0 :: spec) ++ [RVal.num 0]
  let wvlCol : List ℚ := (w.getD 0 0 :: w) ++ [w.getD (w.length - 1) 0]
  List.zipWith (fun v x => ⟨RVal.nanToNum v, x⟩) valsCol wvlCol

/-- Hull vertex indices in increasing order (the source sorts them anyway). -/
def hullVertexIdx (pts : List Point) : List ℕ :=
  (List.range pts.length).filter fun i => isVertexIdx pts i

/-- The vertex post-processing of continuum_correction_spectrum:
vertices = np.array(sorted(hull.vertices - 1)[1:-1]) followed by
vertices = np.where(vertices == len(spec_wavelength), 0, vertices). -/
def processedVertices (spec : List RVal) (w : List ℚ) : List ℤ :=
  let shifted := pySorted ((hullVertexIdx (sanitizedPoints spec w)).map fun (i : ℕ) => (i : ℤ) - 1)
  let trimmed := (shifted.drop 1).dropLast
  trimmed.map fun v => if v = (w.length : ℤ) then 0 else v

/-- wvl = spec_wavelength[vertices]: the node wavelengths handed to interp1d,
taken from the original wavelength array with no duplicate collapsing. -/
def wvlNodesOf (spec : List RVal) (w : List ℚ) : List ℚ :=
  (processedVertices spec w).map (pyGetQ w)

/-- hull_points = spec[vertices]: the node values handed to interp1d, taken
from the original (unsanitized) spectrum. -/
def hullPointsOf (spec : List RVal) (w : List ℚ) : List RVal :=
  (processedVertices spec w).map (pyGetR spec)

/-- continuum = continuum_interpolator(spec_wavelength). -/
def continuumOf (spec : List RVal) (w : List ℚ) : List RVal :=
  w.map (interp1dEval (wvlNodesOf spec w) (hullPointsOf spec w))

/-- Bounds test for the vertex indices: both spec[vertices] and
spec_wavelength[vertices] succeed exactly when every processed index is a
valid Python index of the (equal length) arrays. -/
def verticesInBounds (spec : List RVal) (w : List ℚ) : Bool :=
  (processedVertices spec w).all fun v =>
    decide (-(spec.length : ℤ) ≤ v) && decide (v < (spec.length : ℤ))

/-- Model of continuum_correction_spectrum (src/continuum_correction.py).
The two leading shape asserts fail as shapeMismatch when the lengths differ
(1-D dimensionality is enforced by the list typing); a degenerate point set
makes ConvexHull raise (degenerateHull); an out-of-range processed vertex
would make the unguarded wavelength lookup raise (indexError; the guarded
value lookup before it cannot save the call).  Otherwise the result is
spec / continuum elementwise; the code after the return statement in the
source is unreachable and is not modelled. -/
def continuum_correction_spectrum (spec : List RVal) (w : List ℚ) :
    Except SpecError (List RVal) :=
  if spec.length ≠ w.length then .error .shapeMismatch
  else
    let pts := sanitizedPoints spec w
    if pts.length < 3 ∨ collinearAll pts then .error .degenerateHull
    else if verticesInBounds spec w then
      .ok (List.zipWith RVal.div spec (continuumOf spec w))
    else .error .indexError

/-- Inner loop of scipy.signal._peak_finding_utils._local_maxima_1d: starting
at index j, advance while the samples stay equal to the plateau value v and
the maximal index iMax has not been reached. -/
def plateauEndAux (x : List ℚ) (iMax : ℕ) (v : ℚ) : ℕ → ℕ → ℕ
  | 0, j => j
  | fuel + 1, j =>
    if j < iMax ∧ x.getD j 0 = v then plateauEndAux x iMax v fuel (j + 1) else j

/-- Outer loop of _local_maxima_1d: a sample opens a candidate peak when it
exceeds its left neighbour; the candidate is confirmed when the sample after
its plateau is lower, and the reported index is the plateau midpoint. -/
def localMaximaAux (x : List ℚ) (iMax : ℕ) : ℕ → ℕ → List ℕ
  | 0, _ => []
  | fuel + 1, i =>
    if i < iMax then
      if x.getD (i - 1) 0 < x.getD i 0 then
        let j := plateauEndAux x iMax (x.getD i 0) iMax (i + 1)
        if x.getD j 0 < x.getD i 0 then
          (i + (j - 1)) / 2 :: localMaximaAux x iMax fuel (j + 1)
        else localMaximaAux x iMax fuel (i + 1)
      else localMaximaAux x iMax fuel (i + 1)
    else []

/-- Local maxima of a signal, as scipy's _local_maxima_1d reports them
(interior indices only; plateau midpoints). -/
def localMaxima (x : List ℚ) : List ℕ := localMaximaAux x (x.length - 1) x.length 1

/-- Model of scipy.signal.find_peaks(x, threshold=t): the local maxima kept by
_select_by_peak_threshold (t at most the smaller vertical distance to the two
immediate neighbours), paired with their left and right thresholds as returned
in the properties dict. -/
def find_peaks_threshold (x : List ℚ) (t : ℚ) : List (ℕ × ℚ × ℚ) :=
  (localMaxima x).filterMap fun p =>
    let l := x.getD p 0 - x.getD (p - 1) 0
    let r := x.getD p 0 - x.getD (p + 1) 0
    if t ≤ min l r then some (p, l, r) else none

/-- Sequential scatter assignment fixed[lows] = fixed_lows of numpy fancy
index assignment. -/
def scatterSet (v : List ℚ) (is : List ℕ) (bs : List ℚ) : List ℚ :=
  (is.zip bs).foldl (fun acc e => acc.set e.1 e.2) v

/-- Model of fix_outlier_args (src/tools/despiking.py): find the anomalous
troughs as peaks of the negated signal, then raise each trough by the mean of
its two thresholds; all other samples are returned unchanged. -/
def fix_outlier_args (v : List ℚ) (t : ℚ) : List ℚ :=
  let fixed := v
  let lows := find_peaks_threshold (fixed.map Neg.neg) t
  let fixed_lows := lows.map fun e => fixed.getD e.1 0 + (e.2.1 + e.2.2) / 2
  scatterSet fixed (lows.map (·.1)) fixed_lows

/-- Hyperspectral cube: (lines x samples x wavelength) nested values, the
shared wavelength coordinate, and free-form metadata, as an xarray DataArray
carries them. -/
structure DataArray (α : Type) where
  wavelength : List ℚ
  values : List (List (List α))
  attrs : List (String × String)
deriving DecidableEq, Repr

/-- Shape predicate: the cube has L lines, S samples per line, and W bands per
pixel. -/
def HasShape {α : Type} (vals : List (List (List α))) (L S W : ℕ) : Prop :=
  vals.length = L ∧ ∀ row ∈ vals, row.length = S ∧ ∀ pix ∈ row, pix.length = W

/-- Chunking a flat row list back into groups of S rows (np reshape of an
(L*S, W) array to (L, S, W)); fuel-based so that it reduces definitionally. -/
def chunkAux (S : ℕ) : ℕ → List β → List (List β)
  | 0, _ => []
  | fuel + 1, l => if l.isEmpty then [] else l.take S :: chunkAux S fuel (l.drop S)

/-- Reshape of a flat pixel list to (lines, samples) groups. -/
def chunkList (S : ℕ) (l : List β) : List (List β) := chunkAux S l.length l

/-- Model of despike_image (src/tools/despiking.py): flatten the spatial axes,
apply fix_outlier_args along each spectrum, and reshape to the input shape.
The result is a bare numpy array: no coordinates and no attrs are attached. -/
def despike_image (hsi : DataArray ℚ) (t : ℚ) : List (List (List ℚ)) :=
  let flattened := hsi.values.flatten
  let despiked := flattened.map fun row => fix_outlier_args row t
  chunkList (hsi.values.getD 0 []).length despiked

/-- Collection of per-pixel results, as the joblib generator consumption
behaves: results are collected in input order and the first worker exception
propagates to the caller. -/
def exceptAll : List (Except SpecError (List RVal)) → Except SpecError (List (List RVal))
  | [] => .ok []
  | .error e :: _ => .error e
  | .ok r :: rest =>
    match exceptAll rest with
    | .error e => .error e
    | .ok rs => .ok (r :: rs)

/-- Model of continuum_image (src/continuum_correction.py): map
continuum_correction_spectrum over the flattened pixels (joblib keeps results
in input order and propagates the first worker exception), reshape, and wrap
in a DataArray with the input coordinates.  No attrs are set on the result
(xr.DataArray is constructed without attrs, so they default to empty). -/
def continuum_image (hsi : DataArray ℚ) : Except SpecError (DataArray RVal) :=
  let pixels := hsi.values.flatten.map fun row => row.map RVal.num
  match exceptAll (pixels.map fun p => continuum_correction_spectrum p hsi.wavelength) with
  | .error e => .error e
  | .ok res =>
    .ok { wavelength := hsi.wavelength,
          values := chunkList (hsi.values.getD 0 []).length res,
          attrs := [] }

/-- Model of the despiking stage of process_folder (src/correct_images.py):
despike_image runs only when the threshold is positive, and its bare result is
rewrapped with the original coordinates and attrs; otherwise the image passes
through untouched. -/
def despikeStage (hsi : DataArray ℚ) (t : ℚ) : DataArray ℚ :=
  if 0 < t then
    { wavelength := hsi.wavelength, values := despike_image hsi t, attrs := hsi.attrs }
  else hsi

/-- Worker-pool execution model: tasks finish in an arbitrary completion order
(the order list), and each completed task writes its result into the output
buffer slot of its own input index, as the parallel map of joblib keys results
by dispatch position. -/
def poolRun (f : α → β) (d : α) (items : List α) (order : List ℕ) : List (Option β) :=
  order.foldl (fun buf i => buf.set i (some (f (items.getD i d))))
    (List.replicate items.length none)

/-- Heap model for the mutation claim: the heap is a list of float arrays, an
array reference is an index, and spectrogram.copy() allocates a fresh cell at
the end of the heap.  All writes of fix_outlier_args go to the fresh cell. -/
def fix_outlier_args_heap (heap : List (List ℚ)) (p : ℕ) (t : ℚ) :
    List (List ℚ) × ℕ :=
  let spectrogram := heap.getD p []
  let fixed := spectrogram
  let heap1 := heap ++ [fixed]
  let q := heap.length
  let lows := find_peaks_threshold (fixed.map Neg.neg) t
  let fixed_lows := lows.map fun e => fixed.getD e.1 0 + (e.2.1 + e.2.2) / 2
  let heap2 := heap1.set q (scatterSet fixed (lows.map (·.1)) fixed_lows)
  (heap2, q)

/-- The sanitized point array produced by continuum_correction_spectrum on an
affine spectrum spec = a + b * w: a zero anchor at the first wavelength, the
data points on the line val = a + b * wvl, and a zero anchor at the last
wavelength. -/
def affinePts (a b : ℚ) (w : List ℚ) : List Point :=
  ⟨0, w.getD 0 0⟩ :: ((w.map fun x => (⟨a + b * x, x⟩ : Point))
      ++ [⟨0, w.getD (w.length - 1) 0⟩])

/-- Decidable equality of Except results, needed to evaluate the model on
concrete inputs. -/
instance exceptDecEq {ε α : Type} [DecidableEq ε] [DecidableEq α] : DecidableEq (Except ε α)
  | .error e, .error f => decidable_of_iff (e = f) (by simp)
  | .error _, .ok _ => isFalse fun h => Except.noConfusion h
  | .ok _, .error _ => isFalse fun h => Except.noConfusion h
  | .ok x, .ok y => decidable_of_iff (x = y) (by simp)

section

attribute [local semireducible] Rat.add Rat.mul Rat.sub Rat.inv

/- General list and model helper lemmas. -/

theorem zipWith_replicate_zero_point (m : ℕ) (l : List ℚ) :
    List.zipWith (fun v x => (⟨RVal.nanToNum v, x⟩ : Point)) (List.replicate m (RVal.num 0)) l
      = (l.take m).map fun x => (⟨0, x⟩ : Point) := by
  induction m generalizing l with
  | zero => simp
  | succ k ih =>
    cases l with
    | nil => simp
    | cons y ys => simpa [List.replicate_succ, RVal.nanToNum] using ih ys

theorem collinearAll_of_val_zero (pts : List Point) (h : ∀ x ∈ pts, x.val = 0) :
    collinearAll pts = true := by
  cases pts with
  | nil => rfl
  | cons p rest =>
    rw [collinearAll]
    cases hfind : rest.find? (fun q => decide (q ≠ p)) with
    | none => rfl
    | some q =>
      simp only [List.all_eq_true, decide_eq_true_eq]
      intro r hr
      have hp : p.val = 0 := h p (List.mem_cons_self _ _)
      have hq : q.val = 0 :=
        h q (List.mem_cons_of_mem _ (List.mem_of_find?_eq_some hfind))
      have hrv : r.val = 0 := h r hr
      simp [orient, hp, hq, hrv]

/-- C7: continuum_correction_spectrum rejects inputs whose values and
wavelengths have different lengths: the leading shape asserts fail (the
AssertionError realises the ShapeMismatchError condition of the
specification) and the function never proceeds to the hull computation.
Dimensionality other than 1-D is excluded by the typing of the embedding. -/
theorem continuum_shape_mismatch (spec : List RVal) (w : List ℚ)
    (h : spec.length ≠ w.length) :
    continuum_correction_spectrum spec w = .error .shapeMismatch := by
  unfold continuum_correction_spectrum
  rw [if_pos h]

theorem continuum_shape_mismatch_witness :
    ([RVal.num 1].length ≠ ([] : List ℚ).length) ∧
      continuum_correction_spectrum [RVal.num 1] [] = .error .shapeMismatch :=
  ⟨by decide, continuum_shape_mismatch [RVal.num 1] [] (by decide)⟩

/-- C2: on a degenerate point set the hull computation fails and the failure
surfaces to the caller instead of silently proceeding: for every all-zero
spectrum (with its two zero anchors the whole point set is collinear, which
is exactly when qhull refuses to build a 2-D hull), the call returns the
degenerate-hull error.  In the source the concrete exception is scipy's
QhullError, which derives from RuntimeError and therefore escapes the
except ValueError clause around the ConvexHull call. -/
theorem continuum_degenerate_surfaced (w : List ℚ) (_hw : 1 ≤ w.length) :
    continuum_correction_spectrum (List.replicate w.length (RVal.num 0)) w
      = .error .degenerateHull := by
  unfold continuum_correction_spectrum
  rw [if_neg (by simp)]
  have hzero : ∀ x ∈ sanitizedPoints (List.replicate w.length (RVal.num 0)) w, x.val = 0 := by
    intro x hx
    unfold sanitizedPoints at hx
    rw [show (RVal.num 0 :: List.replicate w.length (RVal.num 0)) ++ [RVal.num 0]
        = List.replicate (w.length + 2) (RVal.num 0) by
      rw [← List.replicate_succ, ← List.replicate_succ'],
      zipWith_replicate_zero_point] at hx
    obtain ⟨y, _, rfl⟩ := List.mem_map.mp hx
    rfl
  rw [if_pos (Or.inr (collinearAll_of_val_zero _ hzero))]

theorem continuum_degenerate_surfaced_witness :
    1 ≤ ([0, 1, 2] : List ℚ).length ∧
      continuum_correction_spectrum (List.replicate 3 (RVal.num 0)) [0, 1, 2]
        = .error .degenerateHull :=
  ⟨by decide, continuum_degenerate_surfaced [0, 1, 2] (by decide)⟩

/-- C3 (amended): the threshold guard that disables despiking lives in
process_folder, not in fix_outlier_args: for every cube and every threshold
at most 0, the despiking stage of the pipeline returns the image bitwise
unchanged (a no-op, not an error).  fix_outlier_args itself still repairs
troughs at threshold 0, which is what the counterexample shows. -/
theorem despike_stage_noop (hsi : DataArray ℚ) (t : ℚ) (ht : t ≤ 0) :
    despikeStage hsi t = hsi := by
  unfold despikeStage
  rw [if_neg (not_lt.mpr ht)]

theorem despike_stage_noop_witness :
    (0 : ℚ) ≤ 0 ∧ despikeStage ⟨[0, 1], [[[1, 2], [3, 4]]], []⟩ 0
      = ⟨[0, 1], [[[1, 2], [3, 4]]], []⟩ :=
  ⟨le_refl 0, despike_stage_noop ⟨[0, 1], [[[1, 2], [3, 4]]], []⟩ 0 (le_refl 0)⟩

/-- C3 counterexample: despike(values, 0) is not the identity.  With
threshold 0 scipy's find_peaks keeps every strict local minimum (the filter
keeps a peak when the threshold is at most the smaller neighbour distance,
and those distances are positive at a strict extremum), so the trough of
[1, 1, 1/5, 1, 1] is raised to 1 even though the threshold is zero. -/
theorem despike_zero_threshold_cex :
    fix_outlier_args [1, 1, 1/5, 1, 1] 0 ≠ [1, 1, 1/5, 1, 1] := by decide

/-- C9: the final division values / continuum is unguarded.  The affine
spectrum (-1, 0, 1) on wavelengths (0, 1, 2) passes every precondition
(1-D, equal lengths, length 3, strictly increasing wavelengths, all values
finite); its continuum is the affine line itself, which vanishes at the
middle wavelength, so the returned array contains NaN (from the IEEE 0/0)
at that position while the call still succeeds with no error raised. -/
theorem continuum_division_unguarded :
    continuum_correction_spectrum [RVal.num (-1), RVal.num 0, RVal.num 1] [0, 1, 2]
        = .ok [RVal.num 1, RVal.nan, RVal.num 1]
      ∧ RVal.nan ∈ [RVal.num 1, RVal.nan, RVal.num 1]
      ∧ RVal.nan.isFinite = false :=
  ⟨by decide, by decide, by decide⟩

theorem set_append_getD (heap : List (List ℚ)) (x y : List ℚ) (p : ℕ)
    (hp : p < heap.length) :
    ((heap ++ [x]).set heap.length y).getD p [] = heap.getD p [] := by
  simp only [List.getD_eq_getElem?_getD]
  rw [List.getElem?_set_ne (Nat.ne_of_gt hp), List.getElem?_append_left hp]

theorem set_append_getD_self (heap : List (List ℚ)) (x y : List ℚ) :
    ((heap ++ [x]).set heap.length y).getD heap.length [] = y := by
  simp only [List.getD_eq_getElem?_getD]
  rw [List.getElem?_set_self (by simp)]
  rfl

/-- C10: fix_outlier_args never mutates its input.  In a heap model where an
array reference is a heap index and spectrogram.copy() allocates a fresh
cell, every write of the function goes to the fresh cell: after the call the
input cell holds exactly its original contents, and the returned cell holds
the pure fix_outlier_args result of the input. -/
theorem fix_outlier_no_mutation (heap : List (List ℚ)) (p : ℕ) (t : ℚ)
    (hp : p < heap.length) :
    (fix_outlier_args_heap heap p t).1.getD p [] = heap.getD p []
      ∧ (fix_outlier_args_heap heap p t).1.getD (fix_outlier_args_heap heap p t).2 []
          = fix_outlier_args (heap.getD p []) t :=
  ⟨set_append_getD heap _ _ p hp, set_append_getD_self heap _ _⟩

theorem fix_outlier_no_mutation_witness :
    (0 < [[(1 : ℚ), 1, 1/5, 1, 1]].length) ∧
      (fix_outlier_args_heap [[(1 : ℚ), 1, 1/5, 1, 1]] 0 (1/10)).1.getD 0 []
        = [[(1 : ℚ), 1, 1/5, 1, 1]].getD 0 [] :=
  ⟨by decide, (fix_outlier_no_mutation [[(1 : ℚ), 1, 1/5, 1, 1]] 0 (1/10) (by decide)).1⟩

theorem foldl_set_getElem?_not_mem (f : α → β) (d : α) (items : List α)
    (order : List ℕ) (buf : List (Option β)) (j : ℕ) (hj : j ∉ order) :
    (order.foldl (fun b i => b.set i (some (f (items.getD i d)))) buf)[j]?
      = buf[j]? := by
  induction order generalizing buf with
  | nil => rfl
  | cons i rest ih =>
    rw [List.foldl_cons, ih _ (fun h => hj (List.mem_cons_of_mem _ h))]
    exact List.getElem?_set_ne fun hh => hj (by subst hh; exact List.mem_cons_self _ _)

theorem foldl_set_length (f : α → β) (d : α) (items : List α)
    (order : List ℕ) (buf : List (Option β)) :
    (order.foldl (fun b i => b.set i (some (f (items.getD i d)))) buf).length
      = buf.length := by
  induction order generalizing buf with
  | nil => rfl
  | cons i rest ih => rw [List.foldl_cons, ih]; simp

theorem poolRun_eq_map (f : α → β) (d : α) (items : List α) (order : List ℕ)
    (h : order.Perm (List.range items.length)) :
    poolRun f d items order = items.map fun a => some (f a) := by
  have hlen : (poolRun f d items order).length = items.length := by
    unfold poolRun; rw [foldl_set_length]; simp
  apply List.ext_getElem?
  intro j
  by_cases hj : j < items.length
  · have hmem : j ∈ order := h.mem_iff.mpr (List.mem_range.mpr hj)
    have hnodup : order.Nodup := h.nodup_iff.mpr (List.nodup_range _)
    obtain ⟨l1, l2, rfl⟩ := List.append_of_mem hmem
    obtain ⟨hn1, hn2, hdisj⟩ := List.nodup_append.mp hnodup
    have hjl2 : j ∉ l2 := fun hh => (List.nodup_cons.mp hn2).1 hh
    have hjl1 : j ∉ l1 := fun hh => hdisj hh (List.mem_cons_self _ _)
    unfold poolRun
    rw [List.foldl_append, List.foldl_cons,
      foldl_set_getElem?_not_mem _ _ _ _ _ _ hjl2]
    have hblen :
        ((l1.foldl (fun b i => b.set i (some (f (items.getD i d))))
          (List.replicate items.length none))).length = items.length := by
      rw [foldl_set_length]; simp
    rw [List.getElem?_set_self (by rw [hblen]; exact hj)]
    rw [List.getElem?_map, List.getElem?_eq_getElem hj]
    simp [List.getD_eq_getElem?_getD, List.getElem?_eq_getElem hj]
  · have h1 : (poolRun f d items order)[j]? = none :=
      List.getElem?_eq_none (by rw [hlen]; omega)
    have h2 : (items.map fun a => some (f a))[j]? = none :=
      List.getElem?_eq_none (by simp; omega)
    rw [h1, h2]

/-- C6: the worker pool writes each pixel's result into the output slot of
that pixel's input index, so for every completion order (any permutation of
the task indices) the pool run of the per-pixel continuum correction is
bitwise identical to the sequential map in input order. -/
theorem continuum_pool_deterministic (w : List ℚ) (pixels : List (List RVal))
    (order : List ℕ) (h : order.Perm (List.range pixels.length)) :
    poolRun (fun p => continuum_correction_spectrum p w) [] pixels order
      = pixels.map fun p => some (continuum_correction_spectrum p w) :=
  poolRun_eq_map _ _ _ _ h

theorem continuum_pool_deterministic_witness :
    ([2, 0, 1].Perm (List.range 3)) ∧
      poolRun (fun p => continuum_correction_spectrum p [5])
          [] [[RVal.num 1], [RVal.num 2], [RVal.num 3]] [2, 0, 1]
        = [[RVal.num 1], [RVal.num 2], [RVal.num 3]].map
            fun p => some (continuum_correction_spectrum p [5]) :=
  ⟨by decide,
    continuum_pool_deterministic [5] [[RVal.num 1], [RVal.num 2], [RVal.num 3]]
      [2, 0, 1] (by decide)⟩


theorem localMaximaAux_succ (x : List ℚ) (iMax k i : ℕ) :
    localMaximaAux x iMax (k + 1) i =
      if i < iMax then
        if x.getD (i - 1) 0 < x.getD i 0 then
          if x.getD (plateauEndAux x iMax (x.getD i 0) iMax (i + 1)) 0 < x.getD i 0 then
            (i + (plateauEndAux x iMax (x.getD i 0) iMax (i + 1) - 1)) / 2 ::
              localMaximaAux x iMax k (plateauEndAux x iMax (x.getD i 0) iMax (i + 1) + 1)
          else localMaximaAux x iMax k (i + 1)
        else localMaximaAux x iMax k (i + 1)
      else [] := rfl

theorem plateauEndAux_ge (x : List ℚ) (iMax : ℕ) (v : ℚ) (fuel j : ℕ) :
    j ≤ plateauEndAux x iMax v fuel j := by
  induction fuel generalizing j with
  | zero => exact le_refl j
  | succ k ih =>
    have hdef : plateauEndAux x iMax v (k + 1) j
        = if j < iMax ∧ x.getD j 0 = v then plateauEndAux x iMax v k (j + 1) else j := rfl
    rw [hdef]
    split_ifs with hc
    · exact le_trans (Nat.le_succ j) (ih (j + 1))
    · exact le_refl j

theorem plateauEndAux_le (x : List ℚ) (iMax : ℕ) (v : ℚ) (fuel j : ℕ) (hj : j ≤ iMax) :
    plateauEndAux x iMax v fuel j ≤ iMax := by
  induction fuel generalizing j with
  | zero => exact hj
  | succ k ih =>
    have hdef : plateauEndAux x iMax v (k + 1) j
        = if j < iMax ∧ x.getD j 0 = v then plateauEndAux x iMax v k (j + 1) else j := rfl
    rw [hdef]
    split_ifs with hc
    · exact ih (j + 1) hc.1
    · exact hj

theorem localMaximaAux_bound (x : List ℚ) (iMax fuel : ℕ) :
    ∀ i, ∀ m ∈ localMaximaAux x iMax fuel i, i ≤ m ∧ m < iMax := by
  induction fuel with
  | zero => intro i m hm; cases hm
  | succ k ih =>
    intro i m hm
    rw [localMaximaAux_succ] at hm
    split_ifs at hm with h1 h2 h3
    · have hj1 : i + 1 ≤ plateauEndAux x iMax (x.getD i 0) iMax (i + 1) :=
        plateauEndAux_ge x iMax _ iMax (i + 1)
      have hj2 : plateauEndAux x iMax (x.getD i 0) iMax (i + 1) ≤ iMax :=
        plateauEndAux_le x iMax _ iMax (i + 1) h1
      rcases List.mem_cons.mp hm with rfl | hm'
      · omega
      · have := ih _ m hm'
        omega
    · have := ih _ m hm
      omega
    · have := ih _ m hm
      omega
    · cases hm

theorem localMaximaAux_pairwise (x : List ℚ) (iMax fuel : ℕ) :
    ∀ i, (localMaximaAux x iMax fuel i).Pairwise (· < ·) := by
  induction fuel with
  | zero => intro i; exact List.Pairwise.nil
  | succ k ih =>
    intro i
    rw [localMaximaAux_succ]
    split_ifs with h1 h2 h3
    · refine List.pairwise_cons.mpr ⟨?_, ih _⟩
      intro m hm
      have hj1 : i + 1 ≤ plateauEndAux x iMax (x.getD i 0) iMax (i + 1) :=
        plateauEndAux_ge x iMax _ iMax (i + 1)
      have := (localMaximaAux_bound x iMax k _ m hm).1
      omega
    · exact ih _
    · exact ih _
    · exact List.Pairwise.nil

theorem find_peaks_mem_elim (x : List ℚ) (t : ℚ) (e : ℕ × ℚ × ℚ)
    (he : e ∈ find_peaks_threshold x t) :
    e.1 ∈ localMaxima x ∧ e.2.1 = x.getD e.1 0 - x.getD (e.1 - 1) 0
      ∧ e.2.2 = x.getD e.1 0 - x.getD (e.1 + 1) 0 := by
  obtain ⟨p, hp, hsome⟩ := List.mem_filterMap.mp he
  have hsome' : (if t ≤ min (x.getD p 0 - x.getD (p - 1) 0) (x.getD p 0 - x.getD (p + 1) 0)
      then some (p, x.getD p 0 - x.getD (p - 1) 0, x.getD p 0 - x.getD (p + 1) 0)
      else none) = some e := hsome
  split_ifs at hsome' with hc
  cases hsome'
  exact ⟨hp, rfl, rfl⟩

theorem find_peaks_bound (x : List ℚ) (t : ℚ) (e : ℕ × ℚ × ℚ)
    (he : e ∈ find_peaks_threshold x t) : 1 ≤ e.1 ∧ e.1 + 1 < x.length := by
  have hmem := (find_peaks_mem_elim x t e he).1
  have := localMaximaAux_bound x (x.length - 1) x.length 1 e.1 hmem
  omega

theorem pairwise_fst_filterMap (g : ℕ → Option (ℕ × ℚ × ℚ))
    (hg : ∀ p e, g p = some e → e.1 = p) :
    ∀ (l : List ℕ), l.Pairwise (· < ·) → ((l.filterMap g).map (·.1)).Pairwise (· < ·) := by
  intro l hl
  induction l with
  | nil => exact List.Pairwise.nil
  | cons a l ih =>
    rcases List.pairwise_cons.mp hl with ⟨ha, hl'⟩
    rw [List.filterMap_cons]
    cases hga : g a with
    | none => exact ih hl'
    | some e =>
      rw [List.map_cons]
      refine List.pairwise_cons.mpr ⟨?_, ih hl'⟩
      intro y hy
      obtain ⟨e', he', rfl⟩ := List.mem_map.mp hy
      obtain ⟨b, hb, hgb⟩ := List.mem_filterMap.mp he'
      rw [hg a e hga, hg b e' hgb]
      exact ha b hb

theorem find_peaks_fst_pairwise (x : List ℚ) (t : ℚ) :
    ((find_peaks_threshold x t).map (·.1)).Pairwise (· < ·) := by
  apply pairwise_fst_filterMap
  · intro p e h
    have h' : (if t ≤ min (x.getD p 0 - x.getD (p - 1) 0) (x.getD p 0 - x.getD (p + 1) 0)
        then some (p, x.getD p 0 - x.getD (p - 1) 0, x.getD p 0 - x.getD (p + 1) 0)
        else none) = some e := h
    split_ifs at h'
    cases h'
    rfl
  · exact localMaximaAux_pairwise x (x.length - 1) x.length 1

theorem scatterSet_length (v : List ℚ) (is : List ℕ) (bs : List ℚ) :
    (scatterSet v is bs).length = v.length := by
  induction is generalizing v bs with
  | nil => rfl
  | cons i is ih =>
    cases bs with
    | nil => rfl
    | cons b bs =>
      have hdef : scatterSet v (i :: is) (b :: bs) = scatterSet (v.set i b) is bs := rfl
      rw [hdef, ih]
      simp

theorem scatterSet_getElem?_not_mem (v : List ℚ) (is : List ℕ) (bs : List ℚ) (j : ℕ)
    (hj : j ∉ is) : (scatterSet v is bs)[j]? = v[j]? := by
  induction is generalizing v bs with
  | nil => rfl
  | cons i is ih =>
    cases bs with
    | nil => rfl
    | cons b bs =>
      have hdef : scatterSet v (i :: is) (b :: bs) = scatterSet (v.set i b) is bs := rfl
      rw [hdef, ih _ _ (fun h => hj (List.mem_cons_of_mem _ h))]
      exact List.getElem?_set_ne fun hh => hj (by subst hh; exact List.mem_cons_self _ _)

theorem scatterSet_getElem?_mem (h : (ℕ × ℚ × ℚ) → ℚ) (lows : List (ℕ × ℚ × ℚ)) :
    ∀ (v : List ℚ), ((lows.map (·.1)).Pairwise (· < ·)) →
      (∀ e ∈ lows, e.1 < v.length) →
      ∀ e ∈ lows, (scatterSet v (lows.map (·.1)) (lows.map h))[e.1]? = some (h e) := by
  induction lows with
  | nil => intro v _ _ e he; cases he
  | cons a lows ih =>
    intro v hpair hb e he
    simp only [List.map_cons] at hpair ⊢
    rcases List.pairwise_cons.mp hpair with ⟨hlt, hpair'⟩
    have hdef : scatterSet v (a.1 :: lows.map (·.1)) (h a :: lows.map h)
        = scatterSet (v.set a.1 (h a)) (lows.map (·.1)) (lows.map h) := rfl
    rw [hdef]
    rcases List.mem_cons.mp he with rfl | he'
    · have hnot : e.1 ∉ lows.map (·.1) := fun hmem => absurd (hlt _ hmem) (lt_irrefl e.1)
      rw [scatterSet_getElem?_not_mem _ _ _ _ hnot]
      exact List.getElem?_set_self (hb e (List.mem_cons_self _ _))
    · exact ih (v.set a.1 (h a)) hpair'
        (fun e' he'' => by rw [List.length_set]; exact hb e' (List.mem_cons_of_mem _ he''))
        e he'

/-- C4: every located downward anomaly (an index kept by find_peaks on the
negated signal, i.e. a strict local trough whose two neighbour distances are
at least the threshold) is replaced by values[i] + (left + right) / 2, and no
other sample is altered; the output keeps the input length.  The concrete
single-spike instance of the claim is the witness below.  One nuance against
the claim's wording: the filter keeps a trough when the threshold is at most
the smaller neighbour distance, so troughs whose prominence exactly equals
the threshold are also repaired; every trough whose prominence strictly
exceeds the threshold is kept in particular. -/
theorem fix_outlier_pointwise (v : List ℚ) (t : ℚ) (_ht : 0 < t) :
    (fix_outlier_args v t).length = v.length
      ∧ (∀ e ∈ find_peaks_threshold (v.map Neg.neg) t,
          (fix_outlier_args v t)[e.1]? = some (v.getD e.1 0 + (e.2.1 + e.2.2) / 2))
      ∧ (∀ j, (∀ e ∈ find_peaks_threshold (v.map Neg.neg) t, e.1 ≠ j) →
          (fix_outlier_args v t)[j]? = v[j]?) := by
  have hdef : fix_outlier_args v t
      = scatterSet v ((find_peaks_threshold (v.map Neg.neg) t).map (·.1))
          ((find_peaks_threshold (v.map Neg.neg) t).map
            fun e => v.getD e.1 0 + (e.2.1 + e.2.2) / 2) := rfl
  have hbound : ∀ e ∈ find_peaks_threshold (v.map Neg.neg) t, e.1 < v.length := by
    intro e he
    have := find_peaks_bound _ t e he
    rw [List.length_map] at this
    omega
  refine ⟨?_, ?_, ?_⟩
  · rw [hdef]; exact scatterSet_length _ _ _
  · intro e he
    rw [hdef]
    exact scatterSet_getElem?_mem _ _ v (find_peaks_fst_pairwise _ t) hbound e he
  · intro j hj
    rw [hdef]
    apply scatterSet_getElem?_not_mem
    intro hmem
    obtain ⟨e, he, heq⟩ := List.mem_map.mp hmem
    exact hj e he heq

theorem fix_outlier_pointwise_witness :
    (0 : ℚ) < 1/10
      ∧ (fix_outlier_args [1, 1, 1, 2/10, 1, 1, 1] (1/10))[3]? = some 1
      ∧ (fix_outlier_args [1, 1, 1, 2/10, 1, 1, 1] (1/10))[2]? = some 1 := by
  have h := fix_outlier_pointwise [1, 1, 1, 2/10, 1, 1, 1] (1/10) (by norm_num)
  refine ⟨by norm_num, ?_, ?_⟩
  · exact (h.2.1 (3, 8/10, 8/10) (by decide)).trans (by decide)
  · exact (h.2.2 2 (by decide)).trans (by decide)


theorem exceptAll_ok (l : List (Except SpecError (List RVal))) (res : List (List RVal))
    (h : exceptAll l = .ok res) : l = res.map Except.ok := by
  induction l generalizing res with
  | nil =>
    cases h
    rfl
  | cons a l ih =>
    cases a with
    | error e => cases h
    | ok r =>
      have hdef : exceptAll (Except.ok r :: l)
          = match exceptAll l with
            | .error e => .error e
            | .ok rs => .ok (r :: rs) := rfl
      rw [hdef] at h
      cases hrest : exceptAll l with
      | error e => rw [hrest] at h; cases h
      | ok rs =>
        rw [hrest] at h
        cases h
        rw [List.map_cons, ← ih rs hrest]

theorem ccs_ok_length (spec : List RVal) (w : List ℚ) (out : List RVal)
    (h : continuum_correction_spectrum spec w = .ok out) : out.length = w.length := by
  have h' : (if spec.length ≠ w.length
        then (Except.error SpecError.shapeMismatch : Except SpecError (List RVal))
      else if (sanitizedPoints spec w).length < 3 ∨ collinearAll (sanitizedPoints spec w)
        then .error .degenerateHull
      else if verticesInBounds spec w
        then .ok (List.zipWith RVal.div spec (continuumOf spec w))
      else .error .indexError) = .ok out := h
  split_ifs at h' with h1 h2 h3
  cases h'
  rw [List.length_zipWith]
  unfold continuumOf
  rw [List.length_map]
  omega

theorem fix_outlier_length (v : List ℚ) (t : ℚ) :
    (fix_outlier_args v t).length = v.length :=
  scatterSet_length _ _ _

theorem flatten_length_of_shape {γ : Type} (vals : List (List (List γ))) (L S W : ℕ)
    (h : HasShape vals L S W) : vals.flatten.length = L * S := by
  obtain ⟨hL, hrows⟩ := h
  subst hL
  induction vals with
  | nil => simp
  | cons row rest ih =>
    simp only [List.flatten_cons, List.length_append, List.length_cons]
    rw [(hrows row (List.mem_cons_self _ _)).1,
      ih fun r hr => hrows r (List.mem_cons_of_mem _ hr)]
    ring

theorem chunkAux_succ (S m : ℕ) {γ : Type} (l : List γ) :
    chunkAux S (m + 1) l = if l.isEmpty then [] else l.take S :: chunkAux S m (l.drop S) := rfl

theorem chunkAux_fuel_inv (S : ℕ) (hS : 0 < S) {γ : Type} :
    ∀ (f1 f2 : ℕ) (l : List γ), l.length ≤ f1 → l.length ≤ f2 →
      chunkAux S f1 l = chunkAux S f2 l := by
  intro f1
  induction f1 with
  | zero =>
    intro f2 l h1 h2
    have hl : l = [] := List.eq_nil_of_length_eq_zero (Nat.le_zero.mp h1)
    subst hl
    cases f2 with
    | zero => rfl
    | succ m => rw [chunkAux_succ]; rfl
  | succ k ih =>
    intro f2 l h1 h2
    cases l with
    | nil =>
      cases f2 with
      | zero => rw [chunkAux_succ]; rfl
      | succ m => rw [chunkAux_succ, chunkAux_succ]; simp
    | cons a l' =>
      cases f2 with
      | zero => simp at h2
      | succ m =>
        rw [chunkAux_succ, chunkAux_succ]
        simp only [List.isEmpty_cons, if_neg (by simp : ¬((false : Bool) = true))]
        have hlen : ((a :: l').drop S).length ≤ k := by
          rw [List.length_drop]
          simp only [List.length_cons] at h1 ⊢
          omega
        have hlen2 : ((a :: l').drop S).length ≤ m := by
          rw [List.length_drop]
          simp only [List.length_cons] at h2 ⊢
          omega
        rw [ih m _ hlen hlen2]

theorem chunkList_shape (S : ℕ) (hS : 0 < S) {γ : Type} :
    ∀ (L : ℕ) (l : List γ), l.length = L * S →
      (chunkList S l).length = L
        ∧ ∀ row ∈ chunkList S l, row.length = S ∧ ∀ x ∈ row, x ∈ l := by
  intro L
  induction L with
  | zero =>
    intro l hl
    have : l = [] := List.eq_nil_of_length_eq_zero (by simpa using hl)
    subst this
    exact ⟨rfl, by intro row hr; cases hr⟩
  | succ k ih =>
    intro l hl
    have hSle : S ≤ l.length := by
      rw [hl, Nat.succ_mul]
      exact Nat.le_add_left S (k * S)
    cases l with
    | nil => simp at hSle; omega
    | cons a l' =>
      have hdef : chunkList S (a :: l')
          = (a :: l').take S :: chunkAux S l'.length ((a :: l').drop S) := by
        unfold chunkList
        rw [show (a :: l').length = l'.length + 1 from rfl, chunkAux_succ]
        simp
      have hdroplen : ((a :: l').drop S).length = k * S := by
        rw [List.length_drop, hl, Nat.succ_mul]
        omega
      have hfuel : chunkAux S l'.length ((a :: l').drop S) = chunkList S ((a :: l').drop S) := by
        unfold chunkList
        apply chunkAux_fuel_inv S hS
        · rw [List.length_drop]
          simp only [List.length_cons]
          omega
        · exact le_refl _
      obtain ⟨ihlen, ihrows⟩ := ih ((a :: l').drop S) hdroplen
      constructor
      · rw [hdef, hfuel]
        simp [ihlen]
      · intro row hrow
        rw [hdef, hfuel] at hrow
        rcases List.mem_cons.mp hrow with rfl | hrow'
        · constructor
          · rw [List.length_take]
            omega
          · intro x hx
            exact List.mem_of_mem_take hx
        · obtain ⟨hrl, hrm⟩ := ihrows row hrow'
          exact ⟨hrl, fun x hx => List.mem_of_mem_drop (hrm x hx)⟩

theorem chunkList_cons_of_ne {γ : Type} (S : ℕ) (l : List γ) (hl : l ≠ []) :
    chunkList S l = l.take S :: chunkAux S (l.length - 1) (l.drop S) := by
  unfold chunkList
  cases l with
  | nil => exact absurd rfl hl
  | cons a l' =>
    rw [show (a :: l').length = l'.length + 1 from rfl, chunkAux_succ]
    simp

theorem chunkList_map_flatten {γ : Type} (f : List ℚ → List γ) (S : ℕ) (hS : 0 < S) :
    ∀ (vals : List (List (List ℚ))), (∀ row ∈ vals, row.length = S) →
      chunkList S (vals.flatten.map f) = vals.map fun row => row.map f := by
  intro vals
  induction vals with
  | nil => intro _; rfl
  | cons row rest ih =>
    intro hrows
    have hrl : row.length = S := hrows row (List.mem_cons_self _ _)
    have hsplit : (row :: rest).flatten.map f = row.map f ++ rest.flatten.map f := by
      rw [List.flatten_cons, List.map_append]
    rw [hsplit]
    have hlen : (row.map f ++ rest.flatten.map f).length
        = (rest.flatten.map f).length + S := by
      rw [List.length_append, List.length_map, hrl]
      omega
    have hne : row.map f ++ rest.flatten.map f ≠ [] := by
      intro hcon
      have := congrArg List.length hcon
      simp only [hlen] at this
      simp at this
      omega
    rw [chunkList_cons_of_ne S _ hne, hlen]
    have htake : (row.map f ++ rest.flatten.map f).take S = row.map f := by
      rw [← hrl, ← List.length_map row f]
      exact List.take_left _ _
    have hdrop : (row.map f ++ rest.flatten.map f).drop S = rest.flatten.map f := by
      rw [← hrl, ← List.length_map row f]
      exact List.drop_left _ _
    rw [htake, hdrop]
    have hfuel : chunkAux S ((rest.flatten.map f).length + S - 1) (rest.flatten.map f)
        = chunkList S (rest.flatten.map f) := by
      unfold chunkList
      apply chunkAux_fuel_inv S hS
      · omega
      · exact le_refl _
    rw [hfuel, ih fun r hr => hrows r (List.mem_cons_of_mem _ hr)]
    rfl

theorem despike_image_shape (hsi : DataArray ℚ) (L S W : ℕ) (t : ℚ) (hS : 0 < S)
    (hshape : HasShape hsi.values L S W) : HasShape (despike_image hsi t) L S W := by
  obtain ⟨w0, vals, attrs0⟩ := hsi
  obtain ⟨hL, hrows⟩ := hshape
  cases vals with
  | nil =>
    simp only [List.length_nil] at hL
    exact ⟨by rw [← hL]; rfl, by intro row hr; cases hr⟩
  | cons row rest =>
    have hrowlen : row.length = S := (hrows row (List.mem_cons_self _ _)).1
    have hdef : despike_image ⟨w0, row :: rest, attrs0⟩ t
        = chunkList row.length ((row :: rest).flatten.map fun r => fix_outlier_args r t) :=
      rfl
    rw [hdef, hrowlen, chunkList_map_flatten (fun r => fix_outlier_args r t) S hS (row :: rest)
      (fun r hr => (hrows r hr).1)]
    refine ⟨by rw [List.length_map]; exact hL, ?_⟩
    intro r hr
    obtain ⟨orig, horig, rfl⟩ := List.mem_map.mp hr
    refine ⟨by rw [List.length_map]; exact (hrows orig horig).1, ?_⟩
    intro pix hpix
    obtain ⟨p0, hp0, rfl⟩ := List.mem_map.mp hpix
    rw [fix_outlier_length]
    exact (hrows orig horig).2 p0 hp0

theorem continuum_image_ok_parts (hsi : DataArray ℚ) (L S W : ℕ) (out : DataArray RVal)
    (hS : 0 < S) (hshape : HasShape hsi.values L S W) (hw : hsi.wavelength.length = W)
    (hout : continuum_image hsi = .ok out) :
    HasShape out.values L S W ∧ out.wavelength = hsi.wavelength ∧ out.attrs = [] := by
  obtain ⟨w0, vals, attrs0⟩ := hsi
  obtain ⟨hL, hrows⟩ := hshape
  simp only at hL hrows hout ⊢
  have hout' :
      (match exceptAll ((vals.flatten.map fun row => row.map RVal.num).map
          fun p => continuum_correction_spectrum p w0) with
        | .error e => (.error e : Except SpecError (DataArray RVal))
        | .ok res => .ok ⟨w0, chunkList (vals.getD 0 []).length res, []⟩) = .ok out := hout
  clear hout
  split at hout'
  · cases hout'
  · cases hout'
    rename_i res heq
    have hmapped := exceptAll_ok _ _ heq
    have hreslen : res.length = L * S := by
      have hlen := congrArg List.length hmapped
      simp only [List.length_map] at hlen
      rw [← hlen]
      exact flatten_length_of_shape vals L S W ⟨hL, hrows⟩
    have hpixlen : ∀ pix ∈ res, pix.length = W := by
      intro pix hpix
      have hok : Except.ok pix
          ∈ (vals.flatten.map fun row => row.map RVal.num).map
              fun p => continuum_correction_spectrum p w0 := by
        rw [hmapped]
        exact List.mem_map.mpr ⟨pix, hpix, rfl⟩
      obtain ⟨p0, _, hp0⟩ := List.mem_map.mp hok
      rw [ccs_ok_length _ _ _ hp0]
      exact hw
    have hchunkS : (vals.getD 0 []).length = S ∨ res = [] := by
      cases vals with
      | nil =>
        right
        simp only [List.length_nil] at hL
        apply List.eq_nil_of_length_eq_zero
        rw [hreslen, ← hL]
        simp
      | cons row rest =>
        left
        simp only [List.getD_cons_zero]
        exact (hrows row (List.mem_cons_self _ _)).1
    refine ⟨?_, rfl, rfl⟩
    rcases hchunkS with hchunkS | hresnil
    · rw [hchunkS]
      obtain ⟨hclen, hcrows⟩ := chunkList_shape S hS L res hreslen
      refine ⟨hclen, ?_⟩
      intro row hrow
      obtain ⟨hrl, hrm⟩ := hcrows row hrow
      exact ⟨hrl, fun pix hpix => hpixlen pix (hrm pix hpix)⟩
    · subst hresnil
      have hLzero : L = 0 := by
        by_contra hcon
        have := hreslen
        simp only [List.length_nil] at this
        have : L * S ≠ 0 := Nat.mul_ne_zero hcon (Nat.pos_iff_ne_zero.mp hS)
        omega
      subst hLzero
      exact ⟨by rfl, by intro row hr; cases hr⟩

/-- C5 (amended): the cube-level operations preserve the (L, S, W) shape, and
continuum_image carries over the wavelength coordinate, but neither preserves
metadata: despike_image returns a bare value array with no coordinates or
attrs, and continuum_image constructs its result DataArray without attrs
(they default to empty; process_folder re-attaches them afterwards).  The
counterexample refutes the original metadata-preservation clause. -/
theorem cube_apply_shape (hsi : DataArray ℚ) (L S W : ℕ) (t : ℚ) (hS : 0 < S)
    (hshape : HasShape hsi.values L S W) (hw : hsi.wavelength.length = W) :
    HasShape (despike_image hsi t) L S W
      ∧ ∀ out, continuum_image hsi = .ok out →
          HasShape out.values L S W ∧ out.wavelength = hsi.wavelength ∧ out.attrs = [] :=
  ⟨despike_image_shape hsi L S W t hS hshape,
    fun out hout => continuum_image_ok_parts hsi L S W out hS hshape hw hout⟩

theorem cube_apply_shape_witness :
    0 < 2
      ∧ HasShape
          (despike_image ⟨[0, 1, 2], [[[1, 2, 1], [1, 2, 1]]], [("sensor", "vnir")]⟩ (1/10))
          1 2 3 :=
  ⟨by decide,
    (cube_apply_shape ⟨[0, 1, 2], [[[1, 2, 1], [1, 2, 1]]], [("sensor", "vnir")]⟩ 1 2 3 (1/10)
      (by decide) ⟨rfl, by decide⟩ (by decide)).1⟩

/-- C5 counterexample: metadata is not preserved.  On a one-pixel cube with
a nonempty attrs dictionary, continuum_image succeeds but returns a DataArray
whose attrs are empty, not the input's. -/
theorem continuum_image_attrs_cex :
    continuum_image ⟨[0, 1, 2], [[[1, 2, 1]]], [("sensor", "vnir")]⟩
        = .ok ⟨[0, 1, 2], [[[RVal.num 1, RVal.num 1, RVal.num 1]]], []⟩
      ∧ ([] : List (String × String)) ≠ [("sensor", "vnir")] :=
  ⟨by decide, by decide⟩

theorem sanitizedPoints_length_le (spec : List RVal) (w : List ℚ) :
    (sanitizedPoints spec w).length ≤ w.length + 2 := by
  unfold sanitizedPoints
  rw [List.length_zipWith]
  simp

theorem hullVertexIdx_pairwise (pts : List Point) :
    (hullVertexIdx pts).Pairwise (· < ·) :=
  (List.pairwise_lt_range pts.length).filter _

theorem hullVertexIdx_lt (pts : List Point) : ∀ i ∈ hullVertexIdx pts, i < pts.length :=
  fun i hi => List.mem_range.mp (List.mem_of_mem_filter hi)

theorem processedVertices_props (spec : List RVal) (w : List ℚ) :
    (processedVertices spec w).Pairwise (· < ·)
      ∧ ∀ x ∈ processedVertices spec w, 0 ≤ x ∧ x < (w.length : ℤ) := by
  have hbase_pair : ((hullVertexIdx (sanitizedPoints spec w)).map
      fun (i : ℕ) => (i : ℤ) - 1).Pairwise (· < ·) := by
    rw [List.pairwise_map]
    exact (hullVertexIdx_pairwise _).imp fun {a b} h => by
      show (a : ℤ) - 1 < (b : ℤ) - 1
      omega
  have hbase_lb : ∀ x ∈ (hullVertexIdx (sanitizedPoints spec w)).map
      fun (i : ℕ) => (i : ℤ) - 1, -1 ≤ x := by
    intro x hx
    obtain ⟨i, _, rfl⟩ := List.mem_map.mp hx
    show -1 ≤ (i : ℤ) - 1
    omega
  have hbase_ub : ∀ x ∈ (hullVertexIdx (sanitizedPoints spec w)).map
      fun (i : ℕ) => (i : ℤ) - 1, x ≤ (w.length : ℤ) := by
    intro x hx
    obtain ⟨i, hi, rfl⟩ := List.mem_map.mp hx
    have h1 := hullVertexIdx_lt _ i hi
    have h2 := sanitizedPoints_length_le spec w
    show (i : ℤ) - 1 ≤ (w.length : ℤ)
    omega
  generalize hbase : (hullVertexIdx (sanitizedPoints spec w)).map
      (fun (i : ℕ) => (i : ℤ) - 1) = base at hbase_pair hbase_lb hbase_ub
  have hsorted : pySorted base = base :=
    List.Sorted.insertionSort_eq (hbase_pair.imp fun h => le_of_lt h)
  have hpv : processedVertices spec w
      = ((base.drop 1).dropLast).map fun v => if v = (w.length : ℤ) then 0 else v := by
    unfold processedVertices
    rw [hbase, hsorted]
  have hdrop_pair : (base.drop 1).Pairwise (· < ·) :=
    List.Pairwise.sublist (List.drop_sublist 1 base) hbase_pair
  have htrim_pair : ((base.drop 1).dropLast).Pairwise (· < ·) :=
    List.Pairwise.sublist (List.dropLast_sublist (base.drop 1)) hdrop_pair
  have htrim_bounds : ∀ x ∈ (base.drop 1).dropLast, 0 ≤ x ∧ x < (w.length : ℤ) := by
    intro x hx
    constructor
    · have hx1 : x ∈ base.drop 1 := List.mem_of_mem_dropLast hx
      cases hb0 : base with
      | nil => rw [hb0] at hx1; cases hx1
      | cons b0 btail =>
        rw [hb0] at hx1
        simp only [List.drop_succ_cons, List.drop_zero] at hx1
        rw [hb0] at hbase_pair
        have hlt := (List.pairwise_cons.mp hbase_pair).1 x hx1
        have hlb0 := hbase_lb b0 (by rw [hb0]; exact List.mem_cons_self _ _)
        omega
    · have hne : base.drop 1 ≠ [] := by
        intro hC
        rw [hC] at hx
        cases hx
      have hsplit := List.dropLast_append_getLast hne
      have hpair2 : ((base.drop 1).dropLast
          ++ [(base.drop 1).getLast hne]).Pairwise (· < ·) := by
        rw [hsplit]
        exact hdrop_pair
      have hlt := (List.pairwise_append.mp hpair2).2.2 x hx _ (List.mem_singleton.mpr rfl)
      have hub := hbase_ub _ ((List.drop_sublist 1 base).subset (List.getLast_mem hne))
      omega
  have hid : (((base.drop 1).dropLast).map fun v => if v = (w.length : ℤ) then 0 else v)
      = (base.drop 1).dropLast := by
    rw [List.map_congr_left fun v hv => if_neg (by have := (htrim_bounds v hv).2; omega)]
    exact List.map_id _
  rw [hpv, hid]
  exact ⟨htrim_pair, htrim_bounds⟩

/-- C8 (amended): continuum_correction_spectrum performs no duplicate
collapsing at all (the drop_duplicates collapse exists only in the separate
hull_correction / _continuum_correction path of the tools module); instead,
under the Spectrum invariant of strictly increasing wavelengths the selected
vertex wavelengths are already strictly increasing, hence duplicate-free, so
the interpolant is well defined without any collapse.  On inputs violating
the invariant, duplicates reach the interpolant uncollapsed, which the
counterexample exhibits. -/
theorem wvlNodes_strict_sorted (spec : List RVal) (w : List ℚ)
    (hw : w.Pairwise (· < ·)) :
    (wvlNodesOf spec w).Pairwise (· < ·) ∧ (wvlNodesOf spec w).Nodup := by
  obtain ⟨hpair, hbnd⟩ := processedVertices_props spec w
  have hmono : (processedVertices spec w).Pairwise
      fun a b => pyGetQ w a < pyGetQ w b := by
    refine hpair.imp_of_mem ?_
    intro a b ha hb hab
    obtain ⟨ha0, haw⟩ := hbnd a ha
    obtain ⟨hb0, hbw⟩ := hbnd b hb
    have hna : a.toNat < w.length := by omega
    have hnb : b.toNat < w.length := by omega
    have hga : pyGetQ w a = w[a.toNat] := by
      unfold pyGetQ
      rw [if_pos ha0]
      exact List.getD_eq_getElem w 0 hna
    have hgb : pyGetQ w b = w[b.toNat] := by
      unfold pyGetQ
      rw [if_pos hb0]
      exact List.getD_eq_getElem w 0 hnb
    rw [hga, hgb]
    exact List.pairwise_iff_getElem.mp hw a.toNat b.toNat hna hnb (by omega)
  have hlt : (wvlNodesOf spec w).Pairwise (· < ·) := by
    unfold wvlNodesOf
    rw [List.pairwise_map]
    exact hmono
  exact ⟨hlt, hlt.imp fun h => ne_of_lt h⟩

theorem wvlNodes_strict_sorted_witness :
    ([0, 1, 2] : List ℚ).Pairwise (· < ·)
      ∧ (wvlNodesOf [RVal.num 1, RVal.num 2, RVal.num 1] [0, 1, 2]).Nodup :=
  ⟨by decide,
    (wvlNodes_strict_sorted [RVal.num 1, RVal.num 2, RVal.num 1] [0, 1, 2] (by decide)).2⟩

/-- C8 counterexample: no collapse happens in continuum_correction_spectrum.
On the (invariant-violating) wavelength grid (0, 1, 1, 2) with values
(1, 5, -5, 1), all six hull points are extreme, the selected vertices are the
four data indices, and the node wavelengths handed to interp1d are
(0, 1, 1, 2): the duplicate wavelength 1 is still present when the
interpolant is constructed. -/
theorem wvlNodes_no_collapse_cex :
    wvlNodesOf [RVal.num 1, RVal.num 5, RVal.num (-5), RVal.num 1] [0, 1, 1, 2]
        = [0, 1, 1, 2]
      ∧ ¬ ([0, 1, 1, 2] : List ℚ).Nodup :=
  ⟨by decide, by decide⟩

theorem orient_sum (p q r s : Point) :
    orient p r s + orient q p s + orient q r p = orient q r s := by
  unfold orient
  ring

theorem orient_cramer_val (p q r s : Point) :
    orient p r s * q.val + orient q p s * r.val + orient q r p * s.val
      = orient q r s * p.val := by
  unfold orient
  ring

theorem orient_cramer_wvl (p q r s : Point) :
    orient p r s * q.wvl + orient q p s * r.wvl + orient q r p * s.wvl
      = orient q r s * p.wvl := by
  unfold orient
  ring

theorem orient_pair_right (p q : Point) : orient p q q = 0 := by
  unfold orient
  ring

theorem onSegment_combo {p q r : Point} (h : onSegment p q r = true) :
    ∃ t : ℚ, 0 ≤ t ∧ t ≤ 1 ∧ p.val = t * q.val + (1 - t) * r.val
      ∧ p.wvl = t * q.wvl + (1 - t) * r.wvl := by
  have h' : orient q r p = 0 ∧ (min q.val r.val ≤ p.val ∧ p.val ≤ max q.val r.val)
      ∧ min q.wvl r.wvl ≤ p.wvl ∧ p.wvl ≤ max q.wvl r.wvl := by
    simpa [onSegment, Bool.and_eq_true, decide_eq_true_eq, and_assoc] using h
  obtain ⟨hcol, ⟨hv1, hv2⟩, hw1, hw2⟩ := h'
  by_cases hqw : q.wvl = r.wvl
  · have hpw : p.wvl = r.wvl := by
      rw [hqw, min_self] at hw1
      rw [hqw, max_self] at hw2
      linarith
    by_cases hqv : q.val = r.val
    · have hpv : p.val = r.val := by
        rw [hqv, min_self] at hv1
        rw [hqv, max_self] at hv2
        linarith
      exact ⟨1, zero_le_one, le_refl 1, by rw [hpv, hqv]; ring, by rw [hpw, hqw]; ring⟩
    · have hne : q.val - r.val ≠ 0 := fun hC => hqv (by linarith)
      have hkey : ((p.val - r.val) / (q.val - r.val)) * (q.val - r.val) = p.val - r.val :=
        div_mul_cancel₀ _ hne
      refine ⟨(p.val - r.val) / (q.val - r.val), ?_, ?_, ?_, ?_⟩
      · rcases lt_or_gt_of_ne hqv with hlt | hgt
        · rw [max_eq_right (le_of_lt hlt)] at hv2
          rw [div_nonneg_iff]
          right
          constructor <;> linarith
        · rw [min_eq_right (le_of_lt hgt)] at hv1
          rw [div_nonneg_iff]
          left
          constructor <;> linarith
      · rcases lt_or_gt_of_ne hqv with hlt | hgt
        · rw [min_eq_left (le_of_lt hlt)] at hv1
          rw [div_le_one_iff]
          right
          right
          constructor <;> linarith
        · rw [max_eq_left (le_of_lt hgt)] at hv2
          rw [div_le_one_iff]
          left
          constructor <;> linarith
      · linear_combination -hkey
      · rw [hpw, hqw]
        ring
  · have hne : q.wvl - r.wvl ≠ 0 := fun hC => hqw (by linarith)
    have hkey : ((p.wvl - r.wvl) / (q.wvl - r.wvl)) * (q.wvl - r.wvl) = p.wvl - r.wvl :=
      div_mul_cancel₀ _ hne
    refine ⟨(p.wvl - r.wvl) / (q.wvl - r.wvl), ?_, ?_, ?_, ?_⟩
    · rcases lt_or_gt_of_ne hqw with hlt | hgt
      · rw [max_eq_right (le_of_lt hlt)] at hw2
        rw [div_nonneg_iff]
        right
        constructor <;> linarith
      · rw [min_eq_right (le_of_lt hgt)] at hw1
        rw [div_nonneg_iff]
        left
        constructor <;> linarith
    · rcases lt_or_gt_of_ne hqw with hlt | hgt
      · rw [min_eq_left (le_of_lt hlt)] at hw1
        rw [div_le_one_iff]
        right
        right
        constructor <;> linarith
      · rw [max_eq_left (le_of_lt hgt)] at hw2
        rw [div_le_one_iff]
        left
        constructor <;> linarith
    · have hcol' : (r.val - q.val) * (p.wvl - q.wvl) - (r.wvl - q.wvl) * (p.val - q.val)
          = 0 := by
        have h0 := hcol
        unfold orient at h0
        linarith
      field_simp
      linear_combination hcol'
    · linear_combination -hkey

theorem inTriangle_combo {p q r s : Point} (h : inTriangle p q r s = true) :
    ∃ α β γ : ℚ, 0 ≤ α ∧ 0 ≤ β ∧ 0 ≤ γ ∧ α + β + γ = 1
      ∧ p.val = α * q.val + β * r.val + γ * s.val
      ∧ p.wvl = α * q.wvl + β * r.wvl + γ * s.wvl := by
  have hdef : inTriangle p q r s
      = if orient q r s = 0
          then onSegment p q r || onSegment p r s || onSegment p q s
          else decide (0 ≤ orient p r s / orient q r s)
            && decide (0 ≤ orient q p s / orient q r s)
            && decide (0 ≤ orient q r p / orient q r s) := rfl
  by_cases hd : orient q r s = 0
  · rw [hdef, if_pos hd] at h
    rcases Bool.or_eq_true_iff.mp h with h' | hqs
    · rcases Bool.or_eq_true_iff.mp h' with hqr | hrs
      · obtain ⟨t, ht0, ht1, hv, hw⟩ := onSegment_combo hqr
        exact ⟨t, 1 - t, 0, ht0, by linarith, le_refl 0, by ring,
          by rw [hv]; ring, by rw [hw]; ring⟩
      · obtain ⟨t, ht0, ht1, hv, hw⟩ := onSegment_combo hrs
        exact ⟨0, t, 1 - t, le_refl 0, ht0, by linarith, by ring,
          by rw [hv]; ring, by rw [hw]; ring⟩
    · obtain ⟨t, ht0, ht1, hv, hw⟩ := onSegment_combo hqs
      exact ⟨t, 0, 1 - t, ht0, le_refl 0, by linarith, by ring,
        by rw [hv]; ring, by rw [hw]; ring⟩
  · rw [hdef, if_neg hd] at h
    simp only [Bool.and_eq_true, decide_eq_true_eq] at h
    obtain ⟨⟨h1, h2⟩, h3⟩ := h
    refine ⟨orient p r s / orient q r s, orient q p s / orient q r s,
      orient q r p / orient q r s, h1, h2, h3, ?_, ?_, ?_⟩
    · field_simp
      linear_combination orient_sum p q r s
    · field_simp
      first
        | linear_combination orient_cramer_val p q r s
        | linear_combination - orient_cramer_val p q r s
    · field_simp
      first
        | linear_combination orient_cramer_wvl p q r s
        | linear_combination - orient_cramer_wvl p q r s

theorem inTriangle_false_of_support (p q r s : Point) (c₁ c₂ e₁ e₂ : ℚ)
    (hq₁ : c₁ * p.val + c₂ * p.wvl ≤ c₁ * q.val + c₂ * q.wvl)
    (hq₂ : c₁ * q.val + c₂ * q.wvl = c₁ * p.val + c₂ * p.wvl →
      e₁ * p.val + e₂ * p.wvl < e₁ * q.val + e₂ * q.wvl)
    (hr₁ : c₁ * p.val + c₂ * p.wvl ≤ c₁ * r.val + c₂ * r.wvl)
    (hr₂ : c₁ * r.val + c₂ * r.wvl = c₁ * p.val + c₂ * p.wvl →
      e₁ * p.val + e₂ * p.wvl < e₁ * r.val + e₂ * r.wvl)
    (hs₁ : c₁ * p.val + c₂ * p.wvl ≤ c₁ * s.val + c₂ * s.wvl)
    (hs₂ : c₁ * s.val + c₂ * s.wvl = c₁ * p.val + c₂ * p.wvl →
      e₁ * p.val + e₂ * p.wvl < e₁ * s.val + e₂ * s.wvl) :
    inTriangle p q r s = false := by
  by_contra hcon
  have htrue : inTriangle p q r s = true := by
    cases hca : inTriangle p q r s
    · exact absurd hca hcon
    · rfl
  obtain ⟨α, β, γ, hα, hβ, hγ, hsum, hv, hw⟩ := inTriangle_combo htrue
  have hφ : α * ((c₁ * q.val + c₂ * q.wvl) - (c₁ * p.val + c₂ * p.wvl))
      + β * ((c₁ * r.val + c₂ * r.wvl) - (c₁ * p.val + c₂ * p.wvl))
      + γ * ((c₁ * s.val + c₂ * s.wvl) - (c₁ * p.val + c₂ * p.wvl)) = 0 := by
    rw [hv, hw]
    linear_combination (-(α * (c₁ * q.val + c₂ * q.wvl) + β * (c₁ * r.val + c₂ * r.wvl)
      + γ * (c₁ * s.val + c₂ * s.wvl))) * hsum
  have hψ : α * ((e₁ * q.val + e₂ * q.wvl) - (e₁ * p.val + e₂ * p.wvl))
      + β * ((e₁ * r.val + e₂ * r.wvl) - (e₁ * p.val + e₂ * p.wvl))
      + γ * ((e₁ * s.val + e₂ * s.wvl) - (e₁ * p.val + e₂ * p.wvl)) = 0 := by
    rw [hv, hw]
    linear_combination (-(α * (e₁ * q.val + e₂ * q.wvl) + β * (e₁ * r.val + e₂ * r.wvl)
      + γ * (e₁ * s.val + e₂ * s.wvl))) * hsum
  have htq : α * ((c₁ * q.val + c₂ * q.wvl) - (c₁ * p.val + c₂ * p.wvl)) = 0 := by
    have h1 := mul_nonneg hα (sub_nonneg.mpr hq₁)
    have h2 := mul_nonneg hβ (sub_nonneg.mpr hr₁)
    have h3 := mul_nonneg hγ (sub_nonneg.mpr hs₁)
    linarith
  have htr : β * ((c₁ * r.val + c₂ * r.wvl) - (c₁ * p.val + c₂ * p.wvl)) = 0 := by
    have h1 := mul_nonneg hα (sub_nonneg.mpr hq₁)
    have h2 := mul_nonneg hβ (sub_nonneg.mpr hr₁)
    have h3 := mul_nonneg hγ (sub_nonneg.mpr hs₁)
    linarith
  have hts : γ * ((c₁ * s.val + c₂ * s.wvl) - (c₁ * p.val + c₂ * p.wvl)) = 0 := by
    have h1 := mul_nonneg hα (sub_nonneg.mpr hq₁)
    have h2 := mul_nonneg hβ (sub_nonneg.mpr hr₁)
    have h3 := mul_nonneg hγ (sub_nonneg.mpr hs₁)
    linarith
  have hψq : 0 ≤ α * ((e₁ * q.val + e₂ * q.wvl) - (e₁ * p.val + e₂ * p.wvl))
      ∧ (0 < α → 0 < α * ((e₁ * q.val + e₂ * q.wvl) - (e₁ * p.val + e₂ * p.wvl))) := by
    rcases eq_or_lt_of_le hα with h0 | hpos
    · rw [← h0]
      exact ⟨by simp, fun hc => absurd hc (by simp)⟩
    · have hzero : (c₁ * q.val + c₂ * q.wvl) - (c₁ * p.val + c₂ * p.wvl) = 0 := by
        rcases mul_eq_zero.mp htq with hC | hC
        · exact absurd hC.symm (ne_of_lt hpos)
        · exact hC
      have hlt := hq₂ (by linarith)
      have hstrict : 0 < α * ((e₁ * q.val + e₂ * q.wvl) - (e₁ * p.val + e₂ * p.wvl)) :=
        mul_pos hpos (by linarith)
      exact ⟨le_of_lt hstrict, fun _ => hstrict⟩
  have hψr : 0 ≤ β * ((e₁ * r.val + e₂ * r.wvl) - (e₁ * p.val + e₂ * p.wvl))
      ∧ (0 < β → 0 < β * ((e₁ * r.val + e₂ * r.wvl) - (e₁ * p.val + e₂ * p.wvl))) := by
    rcases eq_or_lt_of_le hβ with h0 | hpos
    · rw [← h0]
      exact ⟨by simp, fun hc => absurd hc (by simp)⟩
    · have hzero : (c₁ * r.val + c₂ * r.wvl) - (c₁ * p.val + c₂ * p.wvl) = 0 := by
        rcases mul_eq_zero.mp htr with hC | hC
        · exact absurd hC.symm (ne_of_lt hpos)
        · exact hC
      have hlt := hr₂ (by linarith)
      have hstrict : 0 < β * ((e₁ * r.val + e₂ * r.wvl) - (e₁ * p.val + e₂ * p.wvl)) :=
        mul_pos hpos (by linarith)
      exact ⟨le_of_lt hstrict, fun _ => hstrict⟩
  have hψs : 0 ≤ γ * ((e₁ * s.val + e₂ * s.wvl) - (e₁ * p.val + e₂ * p.wvl))
      ∧ (0 < γ → 0 < γ * ((e₁ * s.val + e₂ * s.wvl) - (e₁ * p.val + e₂ * p.wvl))) := by
    rcases eq_or_lt_of_le hγ with h0 | hpos
    · rw [← h0]
      exact ⟨by simp, fun hc => absurd hc (by simp)⟩
    · have hzero : (c₁ * s.val + c₂ * s.wvl) - (c₁ * p.val + c₂ * p.wvl) = 0 := by
        rcases mul_eq_zero.mp hts with hC | hC
        · exact absurd hC.symm (ne_of_lt hpos)
        · exact hC
      have hlt := hs₂ (by linarith)
      have hstrict : 0 < γ * ((e₁ * s.val + e₂ * s.wvl) - (e₁ * p.val + e₂ * p.wvl)) :=
        mul_pos hpos (by linarith)
      exact ⟨le_of_lt hstrict, fun _ => hstrict⟩
  have hone : 0 < α ∨ 0 < β ∨ 0 < γ := by
    by_contra hC
    push_neg at hC
    obtain ⟨hC1, hC2, hC3⟩ := hC
    have ha0 : α = 0 := le_antisymm hC1 hα
    have hb0 : β = 0 := le_antisymm hC2 hβ
    have hc0 : γ = 0 := le_antisymm hC3 hγ
    rw [ha0, hb0, hc0] at hsum
    norm_num at hsum
  rcases hone with hpos | hpos | hpos
  · have := hψq.2 hpos
    linarith [hψr.1, hψs.1]
  · have := hψr.2 hpos
    linarith [hψq.1, hψs.1]
  · have := hψs.2 hpos
    linarith [hψq.1, hψr.1]

theorem mem_ne_of_mem_eraseIdx {pts : List Point} {i : ℕ} {x p : Point}
    (hi : i < pts.length) (hp : pts.getD i ⟨0, 0⟩ = p) (hcount : pts.count p = 1)
    (hx : x ∈ pts.eraseIdx i) : x ∈ pts ∧ x ≠ p := by
  refine ⟨(List.eraseIdx_subset pts i) hx, ?_⟩
  rintro rfl
  rw [List.eraseIdx_eq_take_drop_succ] at hx
  have hgel : pts[i] = x := by
    rw [← hp]
    exact (List.getD_eq_getElem pts ⟨0, 0⟩ hi).symm
  have hcnt : pts.count x
      = (pts.take i).count x + ((pts[i] :: pts.drop (i + 1)).count x) := by
    conv_lhs => rw [← List.take_append_drop i pts, List.drop_eq_getElem_cons hi]
    rw [List.count_append]
  rw [hgel, List.count_cons_self] at hcnt
  rcases List.mem_append.mp hx with hmem | hmem
  · have h1 : 0 < (pts.take i).count x := List.count_pos_iff.mpr hmem
    omega
  · have h1 : 0 < (pts.drop (i + 1)).count x := List.count_pos_iff.mpr hmem
    omega

theorem isVertexIdx_true_of_support (pts : List Point) (i : ℕ) (p : Point)
    (c₁ c₂ e₁ e₂ : ℚ) (hi : i < pts.length) (hp : pts.getD i ⟨0, 0⟩ = p)
    (hcount : pts.count p = 1)
    (hsep : ∀ x ∈ pts, x ≠ p →
      (c₁ * p.val + c₂ * p.wvl ≤ c₁ * x.val + c₂ * x.wvl)
        ∧ (c₁ * x.val + c₂ * x.wvl = c₁ * p.val + c₂ * p.wvl →
            e₁ * p.val + e₂ * p.wvl < e₁ * x.val + e₂ * x.wvl)) :
    isVertexIdx pts i = true := by
  unfold isVertexIdx inConvexOfTriple
  rw [hp, Bool.not_eq_true', List.any_eq_false]
  intro q hq
  rw [Bool.not_eq_true, List.any_eq_false]
  intro r hr
  rw [Bool.not_eq_true, List.any_eq_false]
  intro s hs
  rw [Bool.not_eq_true]
  obtain ⟨hqm, hqne⟩ := mem_ne_of_mem_eraseIdx hi hp hcount hq
  obtain ⟨hrm, hrne⟩ := mem_ne_of_mem_eraseIdx hi hp hcount hr
  obtain ⟨hsm, hsne⟩ := mem_ne_of_mem_eraseIdx hi hp hcount hs
  exact inTriangle_false_of_support p q r s c₁ c₂ e₁ e₂
    (hsep q hqm hqne).1 (hsep q hqm hqne).2 (hsep r hrm hrne).1 (hsep r hrm hrne).2
    (hsep s hsm hsne).1 (hsep s hsm hsne).2

theorem isVertexIdx_false_of_triple (pts : List Point) (i : ℕ) (q r s : Point)
    (hq : q ∈ pts.eraseIdx i) (hr : r ∈ pts.eraseIdx i) (hs : s ∈ pts.eraseIdx i)
    (ht : inTriangle (pts.getD i ⟨0, 0⟩) q r s = true) :
    isVertexIdx pts i = false := by
  unfold isVertexIdx inConvexOfTriple
  rw [Bool.not_eq_false', List.any_eq_true]
  exact ⟨q, hq, List.any_eq_true.mpr ⟨r, hr, List.any_eq_true.mpr ⟨s, hs, ht⟩⟩⟩

theorem getD_mem_eraseIdx_lt {pts : List Point} {j i : ℕ} (hj : j < i)
    (hi : i < pts.length) : pts.getD j ⟨0, 0⟩ ∈ pts.eraseIdx i := by
  have hjlen : j < pts.length := lt_trans hj hi
  rw [List.getD_eq_getElem pts ⟨0, 0⟩ hjlen, List.eraseIdx_eq_take_drop_succ]
  apply List.mem_append_left
  have hjt : j < (pts.take i).length := by
    rw [List.length_take]
    omega
  have hge : (pts.take i)[j] = pts[j] := List.getElem_take pts
  rw [← hge]
  exact List.getElem_mem _

theorem getD_mem_eraseIdx_gt {pts : List Point} {j i : ℕ} (hij : i < j)
    (hj : j < pts.length) : pts.getD j ⟨0, 0⟩ ∈ pts.eraseIdx i := by
  rw [List.getD_eq_getElem pts ⟨0, 0⟩ hj, List.eraseIdx_eq_take_drop_succ]
  apply List.mem_append_right
  have hk : j - (i + 1) < (pts.drop (i + 1)).length := by
    rw [List.length_drop]
    omega
  have hge : (pts.drop (i + 1))[j - (i + 1)] = pts[j] := by
    rw [List.getElem_drop]
    congr 1
    omega
  rw [← hge]
  exact List.getElem_mem _

theorem RVal.sub_num (x y : ℚ) : RVal.sub (RVal.num x) (RVal.num y) = RVal.num (x - y) := by
  simp [RVal.sub, RVal.add, RVal.neg, sub_eq_add_neg]

theorem RVal.div_num (x y : ℚ) (hy : y ≠ 0) :
    RVal.div (RVal.num x) (RVal.num y) = RVal.num (x / y) := by
  simp [RVal.div, hy]

theorem RVal.mul_num (x y : ℚ) : RVal.mul (RVal.num x) (RVal.num y) = RVal.num (x * y) := rfl

theorem RVal.add_num (x y : ℚ) : RVal.add (RVal.num x) (RVal.num y) = RVal.num (x + y) := rfl

theorem zipWith_mk_map_self (g : ℚ → RVal) (f : RVal → ℚ → Point) (w : List ℚ) :
    List.zipWith f (w.map g) w = w.map fun x => f (g x) x := by
  induction w with
  | nil => rfl
  | cons y ys ih => simp [ih]

theorem zipWith_div_map_self (f : ℚ → RVal) (g : ℚ → RVal) (w : List ℚ) :
    List.zipWith RVal.div (w.map f) (w.map g) = w.map fun x => RVal.div (f x) (g x) := by
  induction w with
  | nil => rfl
  | cons y ys ih => simp [ih]

theorem sanitizedPoints_affine (a b : ℚ) (w : List ℚ) :
    sanitizedPoints (w.map fun x => RVal.num (a + b * x)) w
      = ⟨0, w.getD 0 0⟩ :: ((w.map fun x => (⟨a + b * x, x⟩ : Point))
          ++ [⟨0, w.getD (w.length - 1) 0⟩]) := by
  unfold sanitizedPoints
  rw [List.cons_append, List.cons_append, List.zipWith_cons_cons,
    List.zipWith_append _ _ _ _ _ (by rw [List.length_map]), zipWith_mk_map_self]
  rfl

theorem mem_head_cases (w : List ℚ) (hw : w.Pairwise (· < ·)) (hn : 0 < w.length) :
    ∀ y ∈ w, y = w[0] ∨ w[0] < y := by
  intro y hy
  obtain ⟨k, hk, rfl⟩ := List.mem_iff_getElem.mp hy
  cases k with
  | zero => exact Or.inl rfl
  | succ m =>
    exact Or.inr (List.pairwise_iff_getElem.mp hw 0 (m + 1) hn hk (Nat.succ_pos m))

theorem mem_last_cases (w : List ℚ) (hw : w.Pairwise (· < ·)) (hn : 0 < w.length) :
    ∀ y ∈ w, y = w[w.length - 1] ∨ y < w[w.length - 1] := by
  intro y hy
  obtain ⟨k, hk, rfl⟩ := List.mem_iff_getElem.mp hy
  by_cases hke : k = w.length - 1
  · subst hke
    exact Or.inl rfl
  · exact Or.inr (List.pairwise_iff_getElem.mp hw k (w.length - 1) hk (by omega) (by omega))

theorem sanitizedPoints_eq_affinePts (a b : ℚ) (w : List ℚ) :
    sanitizedPoints (w.map fun x => RVal.num (a + b * x)) w = affinePts a b w :=
  sanitizedPoints_affine a b w

theorem affinePts_length (a b : ℚ) (w : List ℚ) :
    (affinePts a b w).length = w.length + 2 := by
  simp [affinePts]

theorem affinePts_getD_zero (a b : ℚ) (w : List ℚ) :
    (affinePts a b w).getD 0 ⟨0, 0⟩ = ⟨0, w.getD 0 0⟩ := rfl

theorem affinePts_getD_data (a b : ℚ) (w : List ℚ) (k : ℕ) (hk : k < w.length) :
    (affinePts a b w).getD (k + 1) ⟨0, 0⟩ = ⟨a + b * w[k], w[k]⟩ := by
  unfold affinePts
  rw [List.getD_cons_succ, List.getD_eq_getElem?_getD,
    List.getElem?_append_left (by simp [hk]), List.getElem?_map]
  rw [List.getElem?_eq_getElem hk]
  rfl

theorem affinePts_getD_last (a b : ℚ) (w : List ℚ) :
    (affinePts a b w).getD (w.length + 1) ⟨0, 0⟩ = ⟨0, w.getD (w.length - 1) 0⟩ := by
  unfold affinePts
  rw [List.getD_cons_succ, List.getD_eq_getElem?_getD,
    List.getElem?_append_right (by simp)]
  simp

theorem affinePts_mem_cases (a b : ℚ) (w : List ℚ) (x : Point)
    (hx : x ∈ affinePts a b w) :
    x = ⟨0, w.getD 0 0⟩ ∨ (∃ y ∈ w, x = (⟨a + b * y, y⟩ : Point))
      ∨ x = ⟨0, w.getD (w.length - 1) 0⟩ := by
  unfold affinePts at hx
  rcases List.mem_cons.mp hx with h | h
  · exact Or.inl h
  rcases List.mem_append.mp h with h | h
  · obtain ⟨y, hy, hxy⟩ := List.mem_map.mp h
    exact Or.inr (Or.inl ⟨y, hy, hxy.symm⟩)
  · exact Or.inr (Or.inr (List.mem_singleton.mp h))

theorem affinePts_count_head (a b : ℚ) (w : List ℚ) (h3 : 3 ≤ w.length)
    (hw : w.Pairwise (· < ·)) (hnz : ∀ y ∈ w, a + b * y ≠ 0) :
    (affinePts a b w).count ⟨0, w.getD 0 0⟩ = 1 := by
  have hn1 : 0 < w.length := by omega
  have h0N : w[0] < w[w.length - 1] :=
    List.pairwise_iff_getElem.mp hw 0 (w.length - 1) hn1 (by omega) (by omega)
  unfold affinePts
  rw [List.count_cons_self]
  have hzero : ((w.map fun x => (⟨a + b * x, x⟩ : Point))
      ++ [(⟨0, w.getD (w.length - 1) 0⟩ : Point)]).count ⟨0, w.getD 0 0⟩ = 0 := by
    rw [List.count_eq_zero]
    intro hmem
    rcases List.mem_append.mp hmem with h | h
    · obtain ⟨y, hy, hxy⟩ := List.mem_map.mp h
      rw [Point.mk.injEq] at hxy
      exact hnz y hy hxy.1
    · have heq := List.mem_singleton.mp h
      rw [Point.mk.injEq] at heq
      have h2 := heq.2
      rw [List.getD_eq_getElem w 0 hn1, List.getD_eq_getElem w 0 (by omega)] at h2
      exact absurd h2 (ne_of_lt h0N)
  omega

theorem affinePts_count_last (a b : ℚ) (w : List ℚ) (h3 : 3 ≤ w.length)
    (hw : w.Pairwise (· < ·)) (hnz : ∀ y ∈ w, a + b * y ≠ 0) :
    (affinePts a b w).count ⟨0, w.getD (w.length - 1) 0⟩ = 1 := by
  have hn1 : 0 < w.length := by omega
  have h0N : w[0] < w[w.length - 1] :=
    List.pairwise_iff_getElem.mp hw 0 (w.length - 1) hn1 (by omega) (by omega)
  unfold affinePts
  rw [List.count_cons_of_ne, List.count_append]
  · have hzero : (w.map fun x => (⟨a + b * x, x⟩ : Point)).count
        ⟨0, w.getD (w.length - 1) 0⟩ = 0 := by
      rw [List.count_eq_zero]
      intro hmem
      obtain ⟨y, hy, hxy⟩ := List.mem_map.mp hmem
      rw [Point.mk.injEq] at hxy
      exact hnz y hy hxy.1
    rw [hzero]
    simp
  · intro heq
    rw [Point.mk.injEq] at heq
    have h2 := heq.2
    rw [List.getD_eq_getElem w 0 (by omega), List.getD_eq_getElem w 0 hn1] at h2
    exact absurd h2.symm (ne_of_lt h0N)

theorem affinePts_count_data (a b : ℚ) (w : List ℚ) (h3 : 3 ≤ w.length)
    (hw : w.Pairwise (· < ·)) (hnz : ∀ y ∈ w, a + b * y ≠ 0)
    (k : ℕ) (hk : k < w.length) :
    (affinePts a b w).count ⟨a + b * w[k], w[k]⟩ = 1 := by
  have hnz_k : a + b * w[k] ≠ 0 := hnz w[k] (List.getElem_mem hk)
  have hnodup : w.Nodup := hw.imp ne_of_lt
  unfold affinePts
  rw [List.count_cons_of_ne, List.count_append]
  · have hinj : Function.Injective fun x : ℚ => (⟨a + b * x, x⟩ : Point) := by
      intro x y hxy
      rw [Point.mk.injEq] at hxy
      exact hxy.2
    have hmap : (w.map fun x => (⟨a + b * x, x⟩ : Point)).count ⟨a + b * w[k], w[k]⟩
        = w.count w[k] := List.count_map_of_injective w _ hinj _
    have hcnt1 : w.count w[k] = 1 :=
      List.count_eq_one_of_mem hnodup (List.getElem_mem hk)
    have hlast : (([⟨0, w.getD (w.length - 1) 0⟩] : List Point)).count
        ⟨a + b * w[k], w[k]⟩ = 0 := by
      rw [List.count_eq_zero]
      intro hmem
      have heq := List.mem_singleton.mp hmem
      rw [Point.mk.injEq] at heq
      exact hnz_k heq.1
    rw [hmap, hcnt1, hlast]
  · intro heq
    rw [Point.mk.injEq] at heq
    exact hnz_k heq.1

theorem affinePts_wvl_lb (a b : ℚ) (w : List ℚ) (hn1 : 0 < w.length)
    (hw : w.Pairwise (· < ·)) :
    ∀ x ∈ affinePts a b w, w[0] ≤ x.wvl := by
  intro x hx
  have hle : w[0] ≤ w[w.length - 1] := by
    by_cases h0 : w.length - 1 = 0
    · have heqi : w[w.length - 1] = w[0] := by
        simp only [h0]
      rw [heqi]
    · exact le_of_lt (List.pairwise_iff_getElem.mp hw 0 (w.length - 1) hn1 (by omega) (by omega))
  rcases affinePts_mem_cases a b w x hx with rfl | ⟨y, hy, rfl⟩ | rfl
  · rw [List.getD_eq_getElem w 0 hn1]
  · rcases mem_head_cases w hw hn1 y hy with h | h
    · exact le_of_eq h.symm
    · exact le_of_lt h
  · rw [List.getD_eq_getElem w 0 (by omega)]
    exact hle

theorem affinePts_wvl_ub (a b : ℚ) (w : List ℚ) (hn1 : 0 < w.length)
    (hw : w.Pairwise (· < ·)) :
    ∀ x ∈ affinePts a b w, x.wvl ≤ w[w.length - 1] := by
  intro x hx
  have hle : w[0] ≤ w[w.length - 1] := by
    by_cases h0 : w.length - 1 = 0
    · have heqi : w[w.length - 1] = w[0] := by
        simp only [h0]
      rw [heqi]
    · exact le_of_lt (List.pairwise_iff_getElem.mp hw 0 (w.length - 1) hn1 (by omega) (by omega))
  rcases affinePts_mem_cases a b w x hx with rfl | ⟨y, hy, rfl⟩ | rfl
  · rw [List.getD_eq_getElem w 0 hn1]
    exact hle
  · rcases mem_last_cases w hw hn1 y hy with h | h
    · exact le_of_eq h
    · exact le_of_lt h
  · rw [List.getD_eq_getElem w 0 (by omega)]

theorem affinePts_wvl_eq_head (a b : ℚ) (w : List ℚ) (h3 : 3 ≤ w.length)
    (hw : w.Pairwise (· < ·)) (x : Point) (hx : x ∈ affinePts a b w)
    (hxe : x.wvl = w[0]) :
    x = ⟨0, w.getD 0 0⟩ ∨ x = ⟨a + b * w[0], w[0]⟩ := by
  have hn1 : 0 < w.length := by omega
  have h0N : w[0] < w[w.length - 1] :=
    List.pairwise_iff_getElem.mp hw 0 (w.length - 1) hn1 (by omega) (by omega)
  rcases affinePts_mem_cases a b w x hx with rfl | ⟨y, hy, rfl⟩ | rfl
  · exact Or.inl rfl
  · right
    have hyw : y = w[0] := hxe
    rw [hyw]
  · exfalso
    rw [List.getD_eq_getElem w 0 (by omega)] at hxe
    exact absurd hxe (ne_of_gt h0N)

theorem affinePts_wvl_eq_last (a b : ℚ) (w : List ℚ) (h3 : 3 ≤ w.length)
    (hw : w.Pairwise (· < ·)) (x : Point) (hx : x ∈ affinePts a b w)
    (hxe : x.wvl = w[w.length - 1]) :
    x = ⟨0, w.getD (w.length - 1) 0⟩
      ∨ x = ⟨a + b * w[w.length - 1], w[w.length - 1]⟩ := by
  have hn1 : 0 < w.length := by omega
  have h0N : w[0] < w[w.length - 1] :=
    List.pairwise_iff_getElem.mp hw 0 (w.length - 1) hn1 (by omega) (by omega)
  rcases affinePts_mem_cases a b w x hx with rfl | ⟨y, hy, rfl⟩ | rfl
  · exfalso
    rw [List.getD_eq_getElem w 0 hn1] at hxe
    exact absurd hxe (ne_of_lt h0N)
  · right
    have hyw : y = w[w.length - 1] := hxe
    rw [hyw]
  · exact Or.inl rfl

theorem affinePts_vertex_zero (a b : ℚ) (w : List ℚ) (h3 : 3 ≤ w.length)
    (hw : w.Pairwise (· < ·)) (hnz : ∀ y ∈ w, a + b * y ≠ 0) :
    isVertexIdx (affinePts a b w) 0 = true := by
  have hn1 : 0 < w.length := by omega
  have hget0 : w.getD 0 0 = w[0] := List.getD_eq_getElem w 0 hn1
  obtain ⟨s, hs⟩ : ∃ s : ℚ, (0:ℚ) < s * (a + b * (w[0])) := by
    rcases lt_or_gt_of_ne (hnz w[0] (List.getElem_mem hn1)) with h | h
    · exact ⟨-1, by nlinarith⟩
    · exact ⟨1, by nlinarith⟩
  apply isVertexIdx_true_of_support (affinePts a b w) 0 ⟨0, w.getD 0 0⟩ 0 1 s 0
    (by rw [affinePts_length]; omega) (affinePts_getD_zero a b w)
    (affinePts_count_head a b w h3 hw hnz)
  intro x hx hne
  have hAv : (⟨0, w.getD 0 0⟩ : Point).val = 0 := rfl
  have hAw : (⟨0, w.getD 0 0⟩ : Point).wvl = w.getD 0 0 := rfl
  have hlb : w[0] ≤ x.wvl := affinePts_wvl_lb a b w hn1 hw x hx
  constructor
  · rw [hAv, hAw, hget0]
    linarith
  · intro heq
    rw [hAv, hAw, hget0] at heq ⊢
    have hxw : x.wvl = w[0] := by linarith
    rcases affinePts_wvl_eq_head a b w h3 hw x hx hxw with rfl | rfl
    · exact absurd rfl hne
    · have hDv : (⟨a + b * w[0], w[0]⟩ : Point).val
          = a + b * w[0] := rfl
      rw [hDv]
      linarith

theorem affinePts_vertex_one (a b : ℚ) (w : List ℚ) (h3 : 3 ≤ w.length)
    (hw : w.Pairwise (· < ·)) (hnz : ∀ y ∈ w, a + b * y ≠ 0) :
    isVertexIdx (affinePts a b w) 1 = true := by
  have hn1 : 0 < w.length := by omega
  have hget0 : w.getD 0 0 = w[0] := List.getD_eq_getElem w 0 hn1
  obtain ⟨s, hs⟩ : ∃ s : ℚ, (0:ℚ) < s * (a + b * (w[0])) := by
    rcases lt_or_gt_of_ne (hnz w[0] (List.getElem_mem hn1)) with h | h
    · exact ⟨-1, by nlinarith⟩
    · exact ⟨1, by nlinarith⟩
  apply isVertexIdx_true_of_support (affinePts a b w) 1 ⟨a + b * w[0], w[0]⟩
    0 1 (-s) 0
    (by rw [affinePts_length]; omega) (affinePts_getD_data a b w 0 hn1)
    (affinePts_count_data a b w h3 hw hnz 0 hn1)
  intro x hx hne
  have hDv : (⟨a + b * w[0], w[0]⟩ : Point).val = a + b * w[0] := rfl
  have hDw : (⟨a + b * w[0], w[0]⟩ : Point).wvl = w[0] := rfl
  have hlb : w[0] ≤ x.wvl := affinePts_wvl_lb a b w hn1 hw x hx
  constructor
  · rw [hDv, hDw]
    linarith
  · intro heq
    rw [hDv, hDw] at heq ⊢
    have hxw : x.wvl = w[0] := by linarith
    rcases affinePts_wvl_eq_head a b w h3 hw x hx hxw with rfl | rfl
    · have hAv : (⟨0, w.getD 0 0⟩ : Point).val = 0 := rfl
      rw [hAv]
      linarith
    · exact absurd rfl hne

theorem affinePts_vertex_last_data (a b : ℚ) (w : List ℚ) (h3 : 3 ≤ w.length)
    (hw : w.Pairwise (· < ·)) (hnz : ∀ y ∈ w, a + b * y ≠ 0) :
    isVertexIdx (affinePts a b w) w.length = true := by
  have hn1 : 0 < w.length := by omega
  have hgetN : w.getD (w.length - 1) 0 = w[w.length - 1] :=
    List.getD_eq_getElem w 0 (by omega)
  obtain ⟨s, hs⟩ : ∃ s : ℚ, (0:ℚ) < s * (a + b * (w[w.length - 1])) := by
    rcases lt_or_gt_of_ne (hnz (w[w.length - 1]) (List.getElem_mem (by omega)))
      with h | h
    · exact ⟨-1, by nlinarith⟩
    · exact ⟨1, by nlinarith⟩
  have hgn : (affinePts a b w).getD w.length ⟨0, 0⟩
      = ⟨a + b * w[w.length - 1], w[w.length - 1]⟩ := by
    have h' := affinePts_getD_data a b w (w.length - 1) (by omega)
    rwa [show w.length - 1 + 1 = w.length from by omega] at h'
  apply isVertexIdx_true_of_support (affinePts a b w) w.length
    ⟨a + b * w[w.length - 1], w[w.length - 1]⟩ 0 (-1) (-s) 0
    (by rw [affinePts_length]; omega) hgn
    (affinePts_count_data a b w h3 hw hnz (w.length - 1) (by omega))
  intro x hx hne
  have hDv : (⟨a + b * w[w.length - 1], w[w.length - 1]⟩ : Point).val
      = a + b * w[w.length - 1] := rfl
  have hDw : (⟨a + b * w[w.length - 1], w[w.length - 1]⟩ : Point).wvl
      = w[w.length - 1] := rfl
  have hub : x.wvl ≤ w[w.length - 1] := affinePts_wvl_ub a b w hn1 hw x hx
  constructor
  · rw [hDv, hDw]
    linarith
  · intro heq
    rw [hDv, hDw] at heq ⊢
    have hxw : x.wvl = w[w.length - 1] := by linarith
    rcases affinePts_wvl_eq_last a b w h3 hw x hx hxw with rfl | rfl
    · have hBv : (⟨0, w.getD (w.length - 1) 0⟩ : Point).val = 0 := rfl
      rw [hBv]
      linarith
    · exact absurd rfl hne

theorem affinePts_vertex_last_anchor (a b : ℚ) (w : List ℚ) (h3 : 3 ≤ w.length)
    (hw : w.Pairwise (· < ·)) (hnz : ∀ y ∈ w, a + b * y ≠ 0) :
    isVertexIdx (affinePts a b w) (w.length + 1) = true := by
  have hn1 : 0 < w.length := by omega
  have hgetN : w.getD (w.length - 1) 0 = w[w.length - 1] :=
    List.getD_eq_getElem w 0 (by omega)
  obtain ⟨s, hs⟩ : ∃ s : ℚ, (0:ℚ) < s * (a + b * (w[w.length - 1])) := by
    rcases lt_or_gt_of_ne (hnz (w[w.length - 1]) (List.getElem_mem (by omega)))
      with h | h
    · exact ⟨-1, by nlinarith⟩
    · exact ⟨1, by nlinarith⟩
  apply isVertexIdx_true_of_support (affinePts a b w) (w.length + 1)
    ⟨0, w.getD (w.length - 1) 0⟩ 0 (-1) s 0
    (by rw [affinePts_length]; omega) (affinePts_getD_last a b w)
    (affinePts_count_last a b w h3 hw hnz)
  intro x hx hne
  have hBv : (⟨0, w.getD (w.length - 1) 0⟩ : Point).val = 0 := rfl
  have hBw : (⟨0, w.getD (w.length - 1) 0⟩ : Point).wvl = w.getD (w.length - 1) 0 := rfl
  have hub : x.wvl ≤ w[w.length - 1] := affinePts_wvl_ub a b w hn1 hw x hx
  constructor
  · rw [hBv, hBw, hgetN]
    linarith
  · intro heq
    rw [hBv, hBw, hgetN] at heq ⊢
    have hxw : x.wvl = w[w.length - 1] := by linarith
    rcases affinePts_wvl_eq_last a b w h3 hw x hx hxw with rfl | rfl
    · exact absurd rfl hne
    · have hDv : (⟨a + b * w[w.length - 1], w[w.length - 1]⟩ : Point).val
          = a + b * w[w.length - 1] := rfl
      rw [hDv]
      linarith

theorem inTriangle_of_onSegment {p q r s : Point} (hd : orient q r s = 0)
    (hseg : onSegment p q r = true) : inTriangle p q r s = true := by
  have hdef : inTriangle p q r s
      = if orient q r s = 0
          then onSegment p q r || onSegment p r s || onSegment p q s
          else decide (0 ≤ orient p r s / orient q r s)
            && decide (0 ≤ orient q p s / orient q r s)
            && decide (0 ≤ orient q r p / orient q r s) := rfl
  rw [hdef, if_pos hd, hseg]
  simp

theorem affinePts_vertex_interior (a b : ℚ) (w : List ℚ) (h3 : 3 ≤ w.length)
    (hw : w.Pairwise (· < ·)) (j : ℕ) (h2 : 2 ≤ j) (hj : j < w.length) :
    isVertexIdx (affinePts a b w) j = false := by
  have hn1 : 0 < w.length := by omega
  obtain ⟨k, rfl⟩ : ∃ k, j = k + 1 := ⟨j - 1, by omega⟩
  have hk1 : 1 ≤ k := by omega
  have hkn : k < w.length := by omega
  have hknm : k < w.length - 1 := by omega
  have hw0k : w[0] < w[k] :=
    List.pairwise_iff_getElem.mp hw 0 k hn1 hkn (by omega)
  have hwkN : w[k] < w[w.length - 1] :=
    List.pairwise_iff_getElem.mp hw k (w.length - 1) hkn (by omega) hknm
  have hget1 : (affinePts a b w).getD 1 ⟨0, 0⟩ = ⟨a + b * w[0], w[0]⟩ :=
    affinePts_getD_data a b w 0 hn1
  have hgetn : (affinePts a b w).getD w.length ⟨0, 0⟩
      = ⟨a + b * w[w.length - 1], w[w.length - 1]⟩ := by
    have h' := affinePts_getD_data a b w (w.length - 1) (by omega)
    rwa [show w.length - 1 + 1 = w.length from by omega] at h'
  have hgetj : (affinePts a b w).getD (k + 1) ⟨0, 0⟩ = ⟨a + b * w[k], w[k]⟩ :=
    affinePts_getD_data a b w k hkn
  have hq : (affinePts a b w).getD 1 ⟨0, 0⟩ ∈ (affinePts a b w).eraseIdx (k + 1) :=
    getD_mem_eraseIdx_lt (by omega) (by rw [affinePts_length]; omega)
  have hr : (affinePts a b w).getD w.length ⟨0, 0⟩ ∈ (affinePts a b w).eraseIdx (k + 1) :=
    getD_mem_eraseIdx_gt (by omega) (by rw [affinePts_length]; omega)
  rw [hget1] at hq
  rw [hgetn] at hr
  apply isVertexIdx_false_of_triple (affinePts a b w) (k + 1)
    ⟨a + b * w[0], w[0]⟩
    ⟨a + b * w[w.length - 1], w[w.length - 1]⟩
    ⟨a + b * w[w.length - 1], w[w.length - 1]⟩
    hq hr hr
  rw [hgetj]
  apply inTriangle_of_onSegment (orient_pair_right _ _)
  simp only [onSegment, Bool.and_eq_true, decide_eq_true_eq]
  refine ⟨⟨⟨⟨?_, ?_⟩, ?_⟩, ?_⟩, ?_⟩
  · unfold orient
    simp only []
    ring
  · rcases le_or_lt 0 b with hb | hb
    · refine le_trans (min_le_left _ _) ?_
      nlinarith [mul_nonneg hb (sub_nonneg.mpr (le_of_lt hw0k))]
    · refine le_trans (min_le_right _ _) ?_
      nlinarith [mul_nonneg (neg_nonneg.mpr (le_of_lt hb)) (sub_nonneg.mpr (le_of_lt hwkN))]
  · rcases le_or_lt 0 b with hb | hb
    · refine le_trans ?_ (le_max_right _ _)
      nlinarith [mul_nonneg hb (sub_nonneg.mpr (le_of_lt hwkN))]
    · refine le_trans ?_ (le_max_left _ _)
      nlinarith [mul_nonneg (neg_nonneg.mpr (le_of_lt hb)) (sub_nonneg.mpr (le_of_lt hw0k))]
  · exact le_trans (min_le_left _ _) (le_of_lt hw0k)
  · exact le_trans (le_of_lt hwkN) (le_max_right _ _)

theorem affinePts_hullVertexIdx (a b : ℚ) (w : List ℚ) (h3 : 3 ≤ w.length)
    (hw : w.Pairwise (· < ·)) (hnz : ∀ y ∈ w, a + b * y ≠ 0) :
    hullVertexIdx (affinePts a b w) = [0, 1, w.length, w.length + 1] := by
  unfold hullVertexIdx
  rw [affinePts_length, List.range_eq_range']
  have h1 : List.range' 0 2 ++ List.range' 2 (w.length - 2) = List.range' 0 w.length := by
    have h := List.range'_append_1 0 2 (w.length - 2)
    rw [show w.length - 2 + 2 = w.length from by omega] at h
    exact h
  have h2 : List.range' 0 w.length ++ List.range' w.length 2
      = List.range' 0 (w.length + 2) := by
    have h := List.range'_append_1 0 w.length 2
    rw [show 2 + w.length = w.length + 2 from by omega] at h
    simpa using h
  rw [← h2, ← h1, List.filter_append, List.filter_append]
  have e01 : List.range' 0 2 = [0, 1] := rfl
  have en2 : List.range' w.length 2 = [w.length, w.length + 1] := rfl
  rw [e01, en2]
  have hv0 := affinePts_vertex_zero a b w h3 hw hnz
  have hv1 := affinePts_vertex_one a b w h3 hw hnz
  have hvn := affinePts_vertex_last_data a b w h3 hw hnz
  have hvn1 := affinePts_vertex_last_anchor a b w h3 hw hnz
  have hf01 : List.filter (fun i => isVertexIdx (affinePts a b w) i) [0, 1] = [0, 1] := by
    simp [List.filter_cons, hv0, hv1]
  have hfn : List.filter (fun i => isVertexIdx (affinePts a b w) i)
      [w.length, w.length + 1] = [w.length, w.length + 1] := by
    simp [List.filter_cons, hvn, hvn1]
  have hfmid : List.filter (fun i => isVertexIdx (affinePts a b w) i)
      (List.range' 2 (w.length - 2)) = [] := by
    rw [List.filter_eq_nil_iff]
    intro j hj
    obtain ⟨i, hi, rfl⟩ := List.mem_range'.mp hj
    have hfalse := affinePts_vertex_interior a b w h3 hw (2 + i) (by omega) (by omega)
    simp [hfalse]
  rw [hf01, hfmid, hfn]
  simp

theorem affine_processedVertices (a b : ℚ) (w : List ℚ) (h3 : 3 ≤ w.length)
    (hw : w.Pairwise (· < ·)) (hnz : ∀ y ∈ w, a + b * y ≠ 0) :
    processedVertices (w.map fun x => RVal.num (a + b * x)) w
      = [0, (w.length : ℤ) - 1] := by
  have hdef : processedVertices (w.map fun x => RVal.num (a + b * x)) w
      = ((pySorted ((hullVertexIdx
            (sanitizedPoints (w.map fun x => RVal.num (a + b * x)) w)).map
            fun (i : ℕ) => (i : ℤ) - 1)).drop 1).dropLast.map
          (fun v => if v = (w.length : ℤ) then 0 else v) := rfl
  rw [hdef, sanitizedPoints_eq_affinePts, affinePts_hullVertexIdx a b w h3 hw hnz]
  have hmap : ([0, 1, w.length, w.length + 1].map fun (i : ℕ) => (i : ℤ) - 1)
      = [-1, 0, (w.length : ℤ) - 1, (w.length : ℤ)] := by
    have e1 : ((0 : ℕ) : ℤ) - 1 = -1 := by norm_num
    have e2 : ((1 : ℕ) : ℤ) - 1 = 0 := by norm_num
    have e4 : ((w.length + 1 : ℕ) : ℤ) - 1 = (w.length : ℤ) := by push_cast; ring
    simp only [List.map_cons, List.map_nil, e1, e2, e4]
  rw [hmap]
  have hsorted : List.Sorted (· ≤ ·) [(-1:ℤ), 0, (w.length : ℤ) - 1, (w.length : ℤ)] := by
    have hcast : (3:ℤ) ≤ (w.length : ℤ) := by exact_mod_cast h3
    refine List.Pairwise.cons ?_ (List.Pairwise.cons ?_ (List.Pairwise.cons ?_
      (List.pairwise_singleton _ _)))
    · intro y hy
      simp only [List.mem_cons, List.not_mem_nil, or_false] at hy
      rcases hy with rfl | rfl | rfl <;> omega
    · intro y hy
      simp only [List.mem_cons, List.not_mem_nil, or_false] at hy
      rcases hy with rfl | rfl <;> omega
    · intro y hy
      simp only [List.mem_cons, List.not_mem_nil, or_false] at hy
      subst hy
      omega
  have hsort : pySorted [(-1:ℤ), 0, (w.length : ℤ) - 1, (w.length : ℤ)]
      = [(-1:ℤ), 0, (w.length : ℤ) - 1, (w.length : ℤ)] := by
    unfold pySorted
    exact List.Sorted.insertionSort_eq hsorted
  rw [hsort]
  have hdrop : (([(-1:ℤ), 0, (w.length : ℤ) - 1, (w.length : ℤ)].drop 1)).dropLast
      = [0, (w.length : ℤ) - 1] := rfl
  rw [hdrop]
  simp only [List.map_cons, List.map_nil]
  rw [if_neg (by omega), if_neg (by omega)]

theorem interp1d_two_nodes (x0 x1 : ℚ) (y0 y1 : RVal) (t : ℚ)
    (h0 : x0 ≤ t) (h1 : t ≤ x1) :
    interp1dEval [x0, x1] [y0, y1] t
      = RVal.add (RVal.mul (RVal.div (RVal.sub y1 y0) (RVal.num (x1 - x0)))
          (RVal.num (t - x0))) y0 := by
  have hidx : min (max (searchsortedLeft [x0, x1] t) 1)
      (([x0, x1] : List ℚ).length - 1) = 1 := by
    have hlen : ([x0, x1] : List ℚ).length - 1 = 1 := rfl
    rw [hlen]
    omega
  have hdef : interp1dEval [x0, x1] [y0, y1] t
      = if t < ([x0, x1] : List ℚ).getD 0 0
            ∨ ([x0, x1] : List ℚ).getD (([x0, x1] : List ℚ).length - 1) 0 < t
          then RVal.nan
          else
            RVal.add
              (RVal.mul
                (RVal.div
                  (RVal.sub
                    (([y0, y1] : List RVal).getD
                      (min (max (searchsortedLeft [x0, x1] t) 1)
                        (([x0, x1] : List ℚ).length - 1)) RVal.nan)
                    (([y0, y1] : List RVal).getD
                      (min (max (searchsortedLeft [x0, x1] t) 1)
                        (([x0, x1] : List ℚ).length - 1) - 1) RVal.nan))
                  (RVal.num
                    (([x0, x1] : List ℚ).getD
                      (min (max (searchsortedLeft [x0, x1] t) 1)
                        (([x0, x1] : List ℚ).length - 1)) 0
                      - ([x0, x1] : List ℚ).getD
                          (min (max (searchsortedLeft [x0, x1] t) 1)
                            (([x0, x1] : List ℚ).length - 1) - 1) 0)))
                (RVal.num
                  (t - ([x0, x1] : List ℚ).getD
                      (min (max (searchsortedLeft [x0, x1] t) 1)
                        (([x0, x1] : List ℚ).length - 1) - 1) 0)))
              (([y0, y1] : List RVal).getD
                (min (max (searchsortedLeft [x0, x1] t) 1)
                  (([x0, x1] : List ℚ).length - 1) - 1) RVal.nan) := rfl
  rw [hdef, if_neg (by push_neg; exact ⟨h0, h1⟩), hidx]
  rfl

theorem affine_wvlNodes (a b : ℚ) (w : List ℚ) (h3 : 3 ≤ w.length)
    (hw : w.Pairwise (· < ·)) (hnz : ∀ y ∈ w, a + b * y ≠ 0) :
    wvlNodesOf (w.map fun x => RVal.num (a + b * x)) w
      = [w[0], w[w.length - 1]] := by
  unfold wvlNodesOf
  rw [affine_processedVertices a b w h3 hw hnz]
  simp only [List.map_cons, List.map_nil]
  have hp0 : pyGetQ w 0 = w[0] := by
    unfold pyGetQ
    rw [if_pos le_rfl]
    exact List.getD_eq_getElem w 0 (by omega)
  have hpN : pyGetQ w ((w.length : ℤ) - 1) = w[w.length - 1] := by
    unfold pyGetQ
    rw [if_pos (by omega)]
    rw [show ((w.length : ℤ) - 1).toNat = w.length - 1 from by omega]
    exact List.getD_eq_getElem w 0 (by omega)
  rw [hp0, hpN]

theorem affine_hullPoints (a b : ℚ) (w : List ℚ) (h3 : 3 ≤ w.length)
    (hw : w.Pairwise (· < ·)) (hnz : ∀ y ∈ w, a + b * y ≠ 0) :
    hullPointsOf (w.map fun x => RVal.num (a + b * x)) w
      = [RVal.num (a + b * (w[0])),
          RVal.num (a + b * (w[w.length - 1]))] := by
  unfold hullPointsOf
  rw [affine_processedVertices a b w h3 hw hnz]
  simp only [List.map_cons, List.map_nil]
  have hlen : (w.map fun x => RVal.num (a + b * x)).length = w.length := by
    rw [List.length_map]
  have hp0 : pyGetR (w.map fun x => RVal.num (a + b * x)) 0
      = RVal.num (a + b * (w[0])) := by
    unfold pyGetR
    rw [if_pos le_rfl]
    rw [List.getD_eq_getElem _ RVal.nan (by rw [hlen]; omega)]
    simp
  have hpN : pyGetR (w.map fun x => RVal.num (a + b * x)) ((w.length : ℤ) - 1)
      = RVal.num (a + b * (w[w.length - 1])) := by
    unfold pyGetR
    rw [if_pos (by omega)]
    rw [show ((w.length : ℤ) - 1).toNat = w.length - 1 from by omega]
    rw [List.getD_eq_getElem _ RVal.nan (by rw [hlen]; omega)]
    simp
  rw [hp0, hpN]

theorem affine_continuum (a b : ℚ) (w : List ℚ) (h3 : 3 ≤ w.length)
    (hw : w.Pairwise (· < ·)) (hnz : ∀ y ∈ w, a + b * y ≠ 0) :
    continuumOf (w.map fun x => RVal.num (a + b * x)) w
      = w.map fun x => RVal.num (a + b * x) := by
  have hn1 : 0 < w.length := by omega
  have h0N : w[0] < w[w.length - 1] :=
    List.pairwise_iff_getElem.mp hw 0 (w.length - 1) hn1 (by omega) (by omega)
  unfold continuumOf
  rw [affine_wvlNodes a b w h3 hw hnz, affine_hullPoints a b w h3 hw hnz]
  apply List.map_congr_left
  intro x hx
  have hx0 : w[0] ≤ x := by
    rcases mem_head_cases w hw hn1 x hx with h | h
    · exact le_of_eq h.symm
    · exact le_of_lt h
  have hxN : x ≤ w[w.length - 1] := by
    rcases mem_last_cases w hw hn1 x hx with h | h
    · exact le_of_eq h
    · exact le_of_lt h
  rw [interp1d_two_nodes _ _ _ _ x hx0 hxN]
  have hne : w[w.length - 1] - w[0] ≠ 0 := sub_ne_zero.mpr (ne_of_gt h0N)
  rw [RVal.sub_num, RVal.div_num _ _ hne, RVal.mul_num, RVal.add_num]
  congr 1
  have hslope : (a + b * (w[w.length - 1]) - (a + b * (w[0])))
      / (w[w.length - 1] - w[0]) = b := by
    field_simp
    ring
  rw [hslope]
  ring

theorem collinearAll_eq_false_of (p q x : Point) (rest : List Point)
    (hq : q ≠ p) (hx : x ∈ p :: q :: rest) (hor : orient p q x ≠ 0) :
    collinearAll (p :: q :: rest) = false := by
  have hdef : collinearAll (p :: q :: rest)
      = match (q :: rest).find? (fun r => decide (r ≠ p)) with
        | none => true
        | some r => (p :: q :: rest).all fun s => decide (orient p r s = 0) := rfl
  rw [hdef, List.find?_cons_of_pos _ (by simpa using hq)]
  show (p :: q :: rest).all (fun s => decide (orient p q s = 0)) = false
  rw [← Bool.not_eq_true, List.all_eq_true]
  intro hall
  exact hor (of_decide_eq_true (hall x hx))

theorem affine_not_collinear (a b : ℚ) (w : List ℚ) (h3 : 3 ≤ w.length)
    (hw : w.Pairwise (· < ·)) (hnz : ∀ y ∈ w, a + b * y ≠ 0) :
    collinearAll (affinePts a b w) = false := by
  obtain ⟨y, ys, rfl⟩ : ∃ y ys, w = y :: ys := by
    cases w with
    | nil => simp at h3
    | cons y ys => exact ⟨y, ys, rfl⟩
  have hys : 0 < ys.length := by
    simp only [List.length_cons] at h3
    omega
  have hshape : affinePts a b (y :: ys)
      = (⟨0, y⟩ : Point) :: (⟨a + b * y, y⟩ : Point)
          :: (ys.map (fun x => (⟨a + b * x, x⟩ : Point))
              ++ [(⟨0, (y :: ys).getD ((y :: ys).length - 1) 0⟩ : Point)]) := by
    simp [affinePts]
  have hv0 : a + b * y ≠ 0 := hnz y (List.mem_cons_self y ys)
  have hgN : (y :: ys).getD ((y :: ys).length - 1) 0
      = (y :: ys)[(y :: ys).length - 1] :=
    List.getD_eq_getElem _ 0 (by simp)
  have hyN : y < (y :: ys)[(y :: ys).length - 1] := by
    have h := List.pairwise_iff_getElem.mp hw 0 ((y :: ys).length - 1)
      (by simp) (by simp) (by simp [List.length_cons]; omega)
    simpa using h
  rw [hshape]
  apply collinearAll_eq_false_of _ _
    (⟨0, (y :: ys).getD ((y :: ys).length - 1) 0⟩ : Point) _
    (by
      intro heq
      rw [Point.mk.injEq] at heq
      exact hv0 heq.1)
    (by
      apply List.mem_cons_of_mem
      apply List.mem_cons_of_mem
      exact List.mem_append_right _ (List.mem_singleton.mpr rfl))
  have hore : orient (⟨0, y⟩ : Point) (⟨a + b * y, y⟩ : Point)
      (⟨0, (y :: ys).getD ((y :: ys).length - 1) 0⟩ : Point)
      = (a + b * y) * ((y :: ys).getD ((y :: ys).length - 1) 0 - y) := by
    unfold orient
    ring
  rw [hore]
  apply mul_ne_zero hv0
  rw [hgN]
  exact sub_ne_zero.mpr (ne_of_gt hyN)

theorem affine_verticesInBounds (a b : ℚ) (w : List ℚ) (h3 : 3 ≤ w.length)
    (hw : w.Pairwise (· < ·)) (hnz : ∀ y ∈ w, a + b * y ≠ 0) :
    verticesInBounds (w.map fun x => RVal.num (a + b * x)) w = true := by
  unfold verticesInBounds
  rw [affine_processedVertices a b w h3 hw hnz]
  simp only [List.all_cons, List.all_nil, List.length_map, Bool.and_eq_true,
    Bool.and_true, decide_eq_true_eq]
  refine ⟨⟨?_, ?_⟩, ?_, ?_⟩ <;> omega

/-- C1.  Straight-line invariance, corrected.  For an affine spectrum
spec = a + b * wavelength over strictly increasing wavelengths of length at
least 3, and nonvanishing spectral values (the unstated hypothesis the
original claim needs), the processed hull vertices are exactly the two
endpoint indices, the interpolated continuum equals the input values at every
wavelength, and continuum_correction_spectrum returns the all-ones spectrum.
Without the nonvanishing hypothesis the result can contain NaN entries (see
the counterexample). -/
theorem continuum_affine (a b : ℚ) (w : List ℚ) (h3 : 3 ≤ w.length)
    (hw : w.Pairwise (· < ·)) (hnz : ∀ y ∈ w, a + b * y ≠ 0) :
    processedVertices (w.map fun x => RVal.num (a + b * x)) w = [0, (w.length : ℤ) - 1]
      ∧ continuumOf (w.map fun x => RVal.num (a + b * x)) w
          = w.map (fun x => RVal.num (a + b * x))
      ∧ continuum_correction_spectrum (w.map fun x => RVal.num (a + b * x)) w
          = .ok (List.replicate w.length (RVal.num 1)) := by
  refine ⟨affine_processedVertices a b w h3 hw hnz, affine_continuum a b w h3 hw hnz, ?_⟩
  have hdef : continuum_correction_spectrum (w.map fun x => RVal.num (a + b * x)) w
      = if (w.map fun x => RVal.num (a + b * x)).length ≠ w.length
          then .error .shapeMismatch
          else if (sanitizedPoints (w.map fun x => RVal.num (a + b * x)) w).length < 3
              ∨ collinearAll (sanitizedPoints (w.map fun x => RVal.num (a + b * x)) w)
            then .error .degenerateHull
            else if verticesInBounds (w.map fun x => RVal.num (a + b * x)) w
              then .ok (List.zipWith RVal.div (w.map fun x => RVal.num (a + b * x))
                (continuumOf (w.map fun x => RVal.num (a + b * x)) w))
              else .error .indexError := rfl
  rw [hdef, if_neg (by simp)]
  rw [if_neg (not_or.mpr ⟨by rw [sanitizedPoints_eq_affinePts, affinePts_length]; omega,
    by rw [sanitizedPoints_eq_affinePts, affine_not_collinear a b w h3 hw hnz]; simp⟩)]
  rw [if_pos (affine_verticesInBounds a b w h3 hw hnz)]
  rw [affine_continuum a b w h3 hw hnz, zipWith_div_map_self]
  have hdiv : ∀ x ∈ w, RVal.div (RVal.num (a + b * x)) (RVal.num (a + b * x))
      = RVal.num 1 := by
    intro x hxw
    rw [RVal.div_num _ _ (hnz x hxw), div_self (hnz x hxw)]
  rw [List.map_congr_left hdiv, List.map_const']

/-- Witness for C1: the affine spectrum 1 + x over wavelengths [0, 1, 2]
satisfies the hypotheses, and the corrected spectrum is all ones. -/
theorem continuum_affine_witness :
    (3 ≤ ([0, 1, 2] : List ℚ).length ∧ ([0, 1, 2] : List ℚ).Pairwise (· < ·)
        ∧ ∀ y ∈ ([0, 1, 2] : List ℚ), 1 + 1 * y ≠ 0)
      ∧ continuum_correction_spectrum
          ((([0, 1, 2] : List ℚ)).map fun x => RVal.num (1 + 1 * x)) [0, 1, 2]
          = .ok (List.replicate 3 (RVal.num 1)) :=
  ⟨⟨by decide, by decide, by decide⟩,
    (continuum_affine 1 1 [0, 1, 2] (by decide) (by decide) (by decide)).2.2⟩

/-- Counterexample for C1 as literally stated: the affine spectrum -1 + x over
wavelengths [0, 1, 2] has strictly increasing wavelengths of length 3, yet the
middle value is 0, the division 0 / 0 produces NaN, and the result is not the
all-ones spectrum. -/
theorem continuum_affine_cex :
    continuum_correction_spectrum
        ((([0, 1, 2] : List ℚ)).map fun x => RVal.num (-1 + 1 * x)) [0, 1, 2]
        = .ok [RVal.num 1, RVal.nan, RVal.num 1]
      ∧ continuum_correction_spectrum
          ((([0, 1, 2] : List ℚ)).map fun x => RVal.num (-1 + 1 * x)) [0, 1, 2]
          ≠ .ok (List.replicate 3 (RVal.num 1)) := by
  constructor
  · decide
  · decide

end
